import Mathlib

/-!
# Shattered_Fates — verification of the pathfinding and UDP-relay core

Shallow embedding of `src/scripts/pathfinding.py` (grid A* over the world
tile grid) and `src/tools/multiplayer.py` (UDP lobby server / client), with
theorems settling the frozen claims about those components.

Conventions of the embedding:
* Python floats (continuous positions, cell size, timestamps) are modelled
  as rationals `ℚ`; Python ints as `ℤ` / `ℕ`.
* Python dicts keyed by cells are modelled as functions `Cell → Option _`
  (only keyed get/set is used by the source); the server's client dict,
  whose insertion order is observable through fan-out, is modelled as an
  insertion-ordered association list.
* Fallible code returns `Except`; exceptions that the source catches are
  modelled structurally at the catch site.
* The unbounded `while` loops of the source are modelled with an explicit
  fuel parameter; the fuel supplied by the top-level entry points is proved
  sufficient, so the fuel-exhaustion branch is dead code.
-/

set_option autoImplicit false

namespace SF

/-! ## The world grid consumed by the pathfinder

`find_path` consumes a world object through the attributes
`cell`, `cols`, `rows` and `tiles[i].kind` (duck typing); `World` models
exactly that interface (`src/scripts/world.py`, class `World` / `Tile`).
-/

/-- A terrain tile; the pathfinder reads only its `kind` attribute. -/
structure Tile where
  kind : String
  deriving DecidableEq, Repr

/-- The world-grid interface consumed by `find_path`: pixel size of one
cell, column/row counts, and the flat row-major tile list. -/
structure World where
  cell : ℚ
  cols : ℤ
  rows : ℤ
  tiles : List Tile
  deriving DecidableEq, Repr

/-- A grid cell: integer (column, row) pair. -/
abbrev Cell := ℤ × ℤ

/-- `BLOCKED_KINDS = {"water"}` (src/scripts/pathfinding.py line 15). -/
def BLOCKED_KINDS : List String := ["water"]

/-- `cell_from_pos` (pathfinding.py lines 18-22): pixel coordinates to grid
cell by floor division by the cell size.  Python's `int(x // cell)` on
floats is the floor (`//` already floors; `int` of an integral float is
that integer); for `cell = 0` Python would raise `ZeroDivisionError`, so
the claims are stated for positive cell sizes. -/
def cell_from_pos (w : World) (x y : ℚ) : Cell :=
  (⌊x / w.cell⌋, ⌊y / w.cell⌋)

/-- `is_walkable` (pathfinding.py lines 25-34): bounds check, then flat
row-major tile lookup guarded by `try ... except IndexError: return False`
(modelled by the `Option`-valued list lookup), then the blocked-kind test. -/
def is_walkable (w : World) (cx cy : ℤ) : Bool :=
  if cx < 0 ∨ cy < 0 ∨ cx ≥ w.cols ∨ cy ≥ w.rows then false
  else
    match w.tiles.get? (cy * w.cols + cx).toNat with
    | none => false
    | some t => ¬ (t.kind ∈ BLOCKED_KINDS)

/-- `neighbors` (pathfinding.py lines 37-44): the four axis-aligned
neighbour cells, in source order `(1,0),(-1,0),(0,1),(0,-1)`, filtered by
walkability. -/
def neighbors (w : World) (cx cy : ℤ) : List Cell :=
  [(cx + 1, cy), (cx - 1, cy), (cx, cy + 1), (cx, cy - 1)].filter
    (fun c => is_walkable w c.1 c.2)

/-- `heuristic` (pathfinding.py lines 47-49): Manhattan distance. -/
def heuristic (a b : Cell) : ℕ :=
  (a.1 - b.1).natAbs + (a.2 - b.2).natAbs

/-- One backtracking step list for `reconstruct` (pathfinding.py lines
52-58).  The Python loop `while current in came_from: current :=
came_from[current]; path.append(current)` followed by `path.reverse()` is
modelled by prepending each predecessor to an accumulator (which yields the
reversed order directly); `fuel` bounds the number of iterations and is
chosen large enough by the caller (the predecessor links produced by the
search are acyclic, which is proved below). -/
def reconstructAux : ℕ → (Cell → Option Cell) → Cell → List Cell → List Cell
  | 0, _, _, acc => acc
  | fuel + 1, came, cur, acc =>
    match came cur with
    | none => acc
    | some p => reconstructAux fuel came p (p :: acc)

/-- `reconstruct` (pathfinding.py lines 52-58) with an explicit iteration
bound. -/
def reconstruct (fuel : ℕ) (came : Cell → Option Cell) (current : Cell) :
    List Cell :=
  reconstructAux fuel came current [current]

end SF

namespace SF

/-! ## The `heapq` priority queue

`find_path` uses `heapq.heappush` / `heapq.heappop` on a list of
`(f_score, cell)` tuples.  The embedding reproduces CPython's
`Lib/heapq.py` (`_siftdown`, `_siftup`, `heappush`, `heappop`) over a
`List`; tuple comparison `<` is the lexicographic order on
`(ℕ, ℤ, ℤ)`. -/

/-- A heap entry: an `(f_score, cell)` tuple as pushed by `find_path`. -/
abbrev Ent := ℕ × Cell

instance : Inhabited Ent := ⟨(0, (0, 0))⟩

/-- Python tuple comparison `(f, (cx, cy)) < (f', (cx', cy'))`:
lexicographic on the three integer components. -/
def entLt (a b : Ent) : Bool :=
  decide (a.1 < b.1) ||
    (decide (a.1 = b.1) &&
      (decide (a.2.1 < b.2.1) ||
        (decide (a.2.1 = b.2.1) && decide (a.2.2 < b.2.2))))

/-- CPython `heapq._siftdown(heap, startpos, pos)`: bubble the entry
`newitem` (read from `heap[pos]` on entry in CPython; passed explicitly
here) up towards the root until its parent is not larger. -/
def siftdownLoop (newitem : Ent) (heap : List Ent) (startpos pos : ℕ) :
    List Ent :=
  if h : startpos < pos then
    let parentpos := (pos - 1) / 2
    let parent := heap.getD parentpos default
    if entLt newitem parent then
      siftdownLoop newitem (heap.set pos parent) startpos parentpos
    else heap.set pos newitem
  else heap.set pos newitem
termination_by pos
decreasing_by exact Nat.lt_of_le_of_lt (Nat.div_le_self _ _) (by omega)

/-- CPython `heapq._siftup(heap, pos)`: move the hole at `pos` down to a
leaf, always following the smaller child, then place `newitem` there and
restore the invariant with `_siftdown`. -/
def siftupLoop (newitem : Ent) (heap : List Ent) (startpos pos : ℕ) :
    List Ent :=
  if h : 2 * pos + 1 < heap.length then
    let childpos := 2 * pos + 1
    let rightpos := childpos + 1
    if hr : rightpos < heap.length ∧
        entLt (heap.getD childpos default) (heap.getD rightpos default) = false then
      siftupLoop newitem (heap.set pos (heap.getD rightpos default)) startpos rightpos
    else
      siftupLoop newitem (heap.set pos (heap.getD childpos default)) startpos childpos
  else siftdownLoop newitem (heap.set pos newitem) startpos pos
termination_by heap.length - pos
decreasing_by
  · simp only [List.length_set]; omega
  · simp only [List.length_set]; omega

/-- CPython `heapq.heappush`: append, then sift the new leaf up. -/
def heappush (heap : List Ent) (item : Ent) : List Ent :=
  siftdownLoop item (heap ++ [item]) 0 heap.length

/-- CPython `heapq.heappop`: pop the last element; if the heap is still
non-empty, the root is returned and the last element is sifted down from
the root.  `none` corresponds to the `IndexError` CPython raises on an
empty heap (never triggered by `find_path`, whose loop guard is
`while open_set`). -/
def heappop (heap : List Ent) : Option (Ent × List Ent) :=
  match heap with
  | [] => none
  | [x] => some (x, [])
  | x :: y :: rest =>
    let l := x :: y :: rest
    let lastelt := l.getLastD default
    let body := l.dropLast
    some (x, siftupLoop lastelt (body.set 0 lastelt) 0 0)

/-! ## The A* search loop (`find_path`, pathfinding.py lines 62-94) -/

/-- Exceptions `find_path` could raise, plus the fuel-exhaustion marker of
the embedding (proved unreachable for the fuel chosen below). -/
inductive PyErr where
  | keyError
  | fuelOut
  deriving DecidableEq, Repr

/-- Pointwise update of a dict modelled as a function. -/
def mupd {α : Type} (m : Cell → α) (k : Cell) (v : α) : Cell → α :=
  fun c => if c = k then v else m c

/-- The mutable state of the search: the `open_set` heap and the
`came_from` / `g_score` / `f_score` dicts and `visited` set. -/
structure AState where
  openSet : List Ent
  cameFrom : Cell → Option Cell
  gScore : Cell → Option ℕ
  fScore : Cell → Option ℕ
  visited : Cell → Bool

/-- The body of the `for nb in neighbors(...)` loop for one neighbour:
`tentative_g = g_score[current] + 1` (a `KeyError` if `current` has no
g-score — proved unreachable), the relaxation test against
`g_score.get(nb, 1_000_000)`, and the guarded push. -/
def relax (goal current nb : Cell) (st : AState) : Except PyErr AState :=
  match st.gScore current with
  | none => .error .keyError
  | some gc =>
    let tentative := gc + 1
    if tentative < (st.gScore nb).getD 1000000 then
      let fnb := tentative + heuristic nb goal
      .ok { openSet :=
              if st.visited nb = false then heappush st.openSet (fnb, nb)
              else st.openSet
            cameFrom := mupd st.cameFrom nb (some current)
            gScore := mupd st.gScore nb (some tentative)
            fScore := mupd st.fScore nb (some fnb)
            visited := st.visited }
    else .ok st

/-- The whole `for nb in neighbors(...)` loop. -/
def relaxAll (goal current : Cell) (nbs : List Cell) (st : AState) :
    Except PyErr AState :=
  match nbs with
  | [] => .ok st
  | nb :: rest =>
    match relax goal current nb st with
    | .error e => .error e
    | .ok st2 => relaxAll goal current rest st2

/-- The `while open_set:` loop of `find_path`.  Pop the least entry; on
reaching the goal, reconstruct the cell path; otherwise mark the cell
visited, relax its neighbours and continue.  `.ok none` is the
`return []` after the loop exhausts the frontier. -/
def astarLoop (w : World) (goal : Cell) : ℕ → AState → Except PyErr (Option (List Cell))
  | 0, _ => .error .fuelOut
  | fuel + 1, st =>
    match heappop st.openSet with
    | none => .ok none
    | some (e, rest) =>
      let current := e.2
      if current = goal then
        .ok (some (reconstruct 1000001 st.cameFrom current))
      else
        let st1 := { st with openSet := rest, visited := mupd st.visited current true }
        match relaxAll goal current (neighbors w current.1 current.2) st1 with
        | .error er => .error er
        | .ok st2 => astarLoop w goal fuel st2

/-- The initial search state: `open_set = [(0, start)]`,
`g_score = {start: 0}`, `f_score = {start: heuristic(start, goal)}`. -/
def initState (start goal : Cell) : AState :=
  { openSet := [(0, start)]
    cameFrom := fun _ => none
    gScore := mupd (fun _ => none) start (some 0)
    fScore := mupd (fun _ => none) start (some (heuristic start goal))
    visited := fun _ => false }

/-- Iteration bound supplied to the loop; proved below to exceed the
strictly decreasing loop measure, so the `fuelOut` branch is dead. -/
def pathFuel (w : World) : ℕ := 5000000 * (w.cols.toNat * w.rows.toNat) + 2

/-- Continuous centre of a cell:
`(c * cell + cell/2)` on each axis (pathfinding.py line 85). -/
def center (w : World) (c : Cell) : ℚ × ℚ :=
  ((c.1 : ℚ) * w.cell + w.cell / 2, (c.2 : ℚ) * w.cell + w.cell / 2)

/-- `find_path` (pathfinding.py lines 62-94). -/
def find_path (w : World) (start_pos target_pos : ℚ × ℚ) :
    Except PyErr (List (ℚ × ℚ)) :=
  let start := cell_from_pos w start_pos.1 start_pos.2
  let goal := cell_from_pos w target_pos.1 target_pos.2
  if ¬ (is_walkable w start.1 start.2) ∨ ¬ (is_walkable w goal.1 goal.2) then
    .ok []
  else
    match astarLoop w goal (pathFuel w) (initState start goal) with
    | .error e => .error e
    | .ok none => .ok []
    | .ok (some cells) => .ok (cells.map (center w))

end SF

namespace SF

/-! ## UDP lobby server (`src/tools/multiplayer.py`, class `UDPLobbyServer`)

The server state observable through the claims: the `clients` dict
(address → last-seen time; Python dicts preserve insertion order, which the
fan-out iterates, so it is modelled as an insertion-ordered association
list), the `running` flag, the number of live background receive threads,
and whether the socket has been closed. -/

/-- A UDP endpoint `(host, port)`, used as the peer-registry key. -/
abbrev Addr := String × ℤ

/-- A raw datagram payload (bytes). -/
abbrev Payload := List ℕ

/-- The peer registry `self.clients : Dict[addr, float]`. -/
abbrev Registry := List (Addr × ℚ)

/-- `self.clients[addr] = t`: dict update — refresh the value in place if
the key exists (keeping its position), otherwise append. -/
def registrySet (r : Registry) (a : Addr) (t : ℚ) : Registry :=
  if a ∈ r.map Prod.fst then
    r.map (fun p => if p.1 = a then (a, t) else p)
  else r ++ [(a, t)]

/-- One pass of the body of `UDPLobbyServer._loop` (multiplayer.py lines
55-75) for a received datagram `data` from `sender`: refresh the sender's
entry with the receive-time `tRecv`, send the raw payload to every other
known address (an `OSError` on one send — `fails` says which addresses
fail — is swallowed and the iteration continues), then evict every client
whose last-seen age at `tClean` exceeds 30 seconds.  Returns the new
registry and the list of successfully delivered `(address, payload)`
pairs in iteration order. -/
def serverStep (fails : Addr → Bool) (r : Registry) (sender : Addr)
    (data : Payload) (tRecv tClean : ℚ) : Registry × List (Addr × Payload) :=
  let r1 := registrySet r sender tRecv
  let delivered :=
    (((r1.map Prod.fst).filter (fun a => a ≠ sender)).filter
      (fun a => fails a = false)).map (fun a => (a, data))
  let r2 := r1.filter (fun p => ¬ (tClean - p.2 > 30))
  (r2, delivered)

/-- The lifecycle state shared by `UDPLobbyServer` and `UDPClient`:
`running` flag, number of live background receive threads, socket
closed? -/
structure NetState where
  running : Bool
  threads : ℕ
  sockClosed : Bool
  deriving DecidableEq, Repr

/-- State of a freshly constructed server/client: socket open (the server
binds in `__init__`, the client creates its socket in `__init__`), not
running, no background thread. -/
def netInit : NetState :=
  { running := false, threads := 0, sockClosed := false }

/-- `UDPLobbyServer.start` (multiplayer.py lines 33-39): early-return when
already running, otherwise set the flag and spawn the receive thread. -/
def serverStart (s : NetState) : NetState :=
  if s.running then s
  else { s with running := true, threads := s.threads + 1 }

/-- `UDPClient.start` (multiplayer.py lines 91-97): identical structure. -/
def clientStart (s : NetState) : NetState :=
  if s.running then s
  else { s with running := true, threads := s.threads + 1 }

/-- Exceptions of the Python runtime relevant to `stop()`. -/
inductive NetErr where
  | osError
  | runtimeError
  deriving DecidableEq, Repr

/-- `sock.close()`: the Python-level socket is marked closed; the
underlying OS close may still report an `OSError` afterwards (`oserr`
oracle).  Returns the new state paired with the optionally raised
exception, so that `try/except` around the call can be modelled
structurally. -/
def sockClose (s : NetState) (oserr : Bool) : NetState × Option NetErr :=
  ({ s with sockClosed := true }, if oserr then some .osError else none)

/-- `UDPLobbyServer.stop` (multiplayer.py lines 41-51): clear `running`,
join the thread (bounded wait; no state effect observable here), then
`try: sock.close() except OSError: log` — a close failure is caught, so
`stop` never raises. -/
def serverStop (s : NetState) (oserr : Bool) : Except NetErr NetState :=
  let s1 := { s with running := false }
  let closed := sockClose s1 oserr
  match closed.2 with
  | some .osError => .ok closed.1
  | some e => .error e
  | none => .ok closed.1

/-- `UDPClient.stop` (multiplayer.py lines 99-113): clear `running`;
`try: join except RuntimeError: pass`; `try: close except OSError: pass`.
`joinerr` says whether `Thread.join` raises `RuntimeError`. -/
def clientStop (s : NetState) (joinerr oserr : Bool) : Except NetErr NetState :=
  let s1 := { s with running := false }
  let afterJoin : Except NetErr NetState :=
    if joinerr then .ok s1 else .ok s1
  match afterJoin with
  | .error e => .error e
  | .ok s2 =>
    let closed := sockClose s2 oserr
    match closed.2 with
    | some .osError => .ok closed.1
    | some e => .error e
    | none => .ok closed.1

/-! ## UDP client receive loop (`UDPClient._listen`, multiplayer.py
lines 123-146)

Each datagram is decoded with `data.decode("utf-8", errors="ignore")`
— CPython's UTF-8 decoder with the `ignore` error handler, which never
raises and drops each maximal invalid subsequence — and the decoded string
is passed to `on_message`.  The `except UnicodeDecodeError: continue`
branch of the source cannot trigger, because the `ignore` handler already
suppresses the error. -/

/-- Is `b` a UTF-8 continuation byte `0x80..0xBF`? -/
def isCont (b : ℕ) : Bool := 0x80 ≤ b && b ≤ 0xBF

/-- Lower bound for the second byte of a multi-byte sequence headed by
`b` (RFC 3629 as implemented by CPython: `0xE0` needs `0xA0..`,
`0xF0` needs `0x90..`). -/
def utf8SecLo (b : ℕ) : ℕ :=
  if b = 0xE0 then 0xA0 else if b = 0xF0 then 0x90 else 0x80

/-- Upper bound for the second byte (`0xED`: `..0x9F` to exclude
surrogates, `0xF4`: `..0x8F` to stay below `U+110000`). -/
def utf8SecHi (b : ℕ) : ℕ :=
  if b = 0xED then 0x9F else if b = 0xF4 then 0x8F else 0xBF

/-- Classify one UTF-8 sequence starting at byte `b` with remaining input
`r`: returns how many further bytes belong to the sequence's maximal valid
subpart, and the decoded character when the sequence is complete and valid
(`none` for an invalid or truncated sequence). -/
def utf8Step (b : ℕ) (r : List ℕ) : ℕ × Option Char :=
  if b < 0x80 then (0, some (Char.ofNat b))
  else if b < 0xC2 then (0, none)
  else if b ≤ 0xDF then
    match r with
    | [] => (0, none)
    | b2 :: _ =>
      if isCont b2 then (1, some (Char.ofNat ((b - 0xC0) * 0x40 + (b2 - 0x80))))
      else (0, none)
  else if b ≤ 0xEF then
    match r with
    | [] => (0, none)
    | b2 :: r2 =>
      if utf8SecLo b ≤ b2 && b2 ≤ utf8SecHi b then
        match r2 with
        | [] => (1, none)
        | b3 :: _ =>
          if isCont b3 then
            (2, some (Char.ofNat ((b - 0xE0) * 0x1000 + (b2 - 0x80) * 0x40 + (b3 - 0x80))))
          else (1, none)
      else (0, none)
  else if b ≤ 0xF4 then
    match r with
    | [] => (0, none)
    | b2 :: r2 =>
      if utf8SecLo b ≤ b2 && b2 ≤ utf8SecHi b then
        match r2 with
        | [] => (1, none)
        | b3 :: r3 =>
          if isCont b3 then
            match r3 with
            | [] => (2, none)
            | b4 :: _ =>
              if isCont b4 then
                (3, some (Char.ofNat ((b - 0xF0) * 0x40000 + (b2 - 0x80) * 0x1000 +
                    (b3 - 0x80) * 0x40 + (b4 - 0x80))))
              else (2, none)
          else (1, none)
      else (0, none)
  else (0, none)

/-- `bytes.decode("utf-8", errors="ignore")`: decode, skipping each
maximal subpart of an invalid sequence and resuming at the byte that
broke it; never raises. -/
def utf8DecodeIgnore : List ℕ → List Char
  | [] => []
  | b :: r =>
    match utf8Step b r with
    | (k, some c) => c :: utf8DecodeIgnore (r.drop k)
    | (k, none) => utf8DecodeIgnore (r.drop k)
termination_by l => l.length
decreasing_by all_goals (simp [List.length_drop]; omega)

/-- Strict UTF-8 decoding (`errors="strict"`): `none` is a
`UnicodeDecodeError`.  Used to state which payloads are malformed. -/
def utf8DecodeStrict : List ℕ → Option (List Char)
  | [] => some []
  | b :: r =>
    match utf8Step b r with
    | (k, some c) => (utf8DecodeStrict (r.drop k)).map (c :: ·)
    | (_, none) => none
termination_by l => l.length
decreasing_by all_goals (simp [List.length_drop]; omega)

/-- A payload is well-formed UTF-8 when strict decoding succeeds. -/
def ValidUtf8 (l : List ℕ) : Bool := (utf8DecodeStrict l).isSome

/-- Handling of one received datagram by `UDPClient._listen`
(multiplayer.py lines 138-146), for a client whose `on_message` handler is
set: the text passed to the handler. -/
def listenDatagram (data : Payload) : String :=
  String.mk (utf8DecodeIgnore data)

/-- The sequence of handler invocations produced by the receive loop for a
sequence of received datagrams. -/
def listenRun (ds : List Payload) : List String :=
  ds.map listenDatagram

end SF

namespace SF

/-! ## Supporting lemmas: peer registry -/

/-- A dict update does not change the key sequence when the key is
already present. -/
theorem registrySet_keys_of_mem {r : Registry} {a : Addr} (t : ℚ)
    (h : a ∈ r.map Prod.fst) :
    (registrySet r a t).map Prod.fst = r.map Prod.fst := by
  simp only [registrySet, if_pos h, List.map_map]
  apply List.map_congr_left
  intro p _
  by_cases hp : p.1 = a <;> simp [hp]

/-- Key sequence after a dict update on a fresh key. -/
theorem registrySet_keys_of_not_mem {r : Registry} {a : Addr} (t : ℚ)
    (h : a ∉ r.map Prod.fst) :
    (registrySet r a t).map Prod.fst = r.map Prod.fst ++ [a] := by
  simp [registrySet, if_neg h]

/-- Dict update preserves key uniqueness. -/
theorem registrySet_keys_nodup {r : Registry} {a : Addr} (t : ℚ)
    (h : (r.map Prod.fst).Nodup) :
    ((registrySet r a t).map Prod.fst).Nodup := by
  by_cases hm : a ∈ r.map Prod.fst
  · rw [registrySet_keys_of_mem t hm]; exact h
  · rw [registrySet_keys_of_not_mem t hm]
    rw [List.nodup_append]
    exact ⟨h, List.nodup_singleton a, by simpa using hm⟩

/-- The updated entry is in the updated dict. -/
theorem registrySet_mem_self (r : Registry) (a : Addr) (t : ℚ) :
    (a, t) ∈ registrySet r a t := by
  by_cases hm : a ∈ r.map Prod.fst
  · obtain ⟨p, hp, hpa⟩ := List.mem_map.1 hm
    simp only [registrySet, if_pos hm]
    exact List.mem_map.2 ⟨p, hp, by simp [hpa]⟩
  · simp [registrySet, if_neg hm]

/-- The key sequence of the updated dict, as a membership fact. -/
theorem registrySet_key_mem {r : Registry} {a b : Addr} {t : ℚ}
    (h : b ∈ (registrySet r a t).map Prod.fst) :
    b ∈ r.map Prod.fst ∨ b = a := by
  by_cases hm : a ∈ r.map Prod.fst
  · rw [registrySet_keys_of_mem t hm] at h; exact Or.inl h
  · rw [registrySet_keys_of_not_mem t hm] at h
    simpa using h

end SF

namespace SF

/-! ## Claims about the UDP relay and `is_walkable` -/

/-- C3: for every received datagram, the server's receive loop refreshes
the sender's registry entry with the receive time and sends the raw
payload to exactly the currently-known peers other than the sender whose
individual send succeeds; a failing send is skipped without affecting the
remaining peers, no peer is sent the payload twice, and the payload is
never sent back to the sender. -/
theorem claim_C3_server_fanout (fails : Addr → Bool) (r : Registry)
    (sender : Addr) (data : Payload) (t1 t2 : ℚ)
    (hnd : (r.map Prod.fst).Nodup) :
    (sender, t1) ∈ registrySet r sender t1 ∧
    (∀ a : Addr, (a, data) ∈ (serverStep fails r sender data t1 t2).2 ↔
      a ∈ (registrySet r sender t1).map Prod.fst ∧ a ≠ sender ∧ fails a = false) ∧
    (∀ pr ∈ (serverStep fails r sender data t1 t2).2, pr.2 = data) ∧
    sender ∉ ((serverStep fails r sender data t1 t2).2.map Prod.fst) ∧
    (((serverStep fails r sender data t1 t2).2.map Prod.fst).Nodup) ∧
    (∀ (fails2 : Addr → Bool) (b : Addr), (∀ x, x ≠ b → fails x = fails2 x) →
      ((serverStep fails r sender data t1 t2).2.filter (fun pr => pr.1 ≠ b)) =
      ((serverStep fails2 r sender data t1 t2).2.filter (fun pr => pr.1 ≠ b))) := by
  refine ⟨registrySet_mem_self r sender t1, ?_, ?_, ?_, ?_, ?_⟩
  · intro a
    simp only [serverStep, List.mem_map, List.mem_filter, decide_eq_true_eq,
      Prod.mk.injEq]
    constructor
    · rintro ⟨x, ⟨⟨hk, hs⟩, hf⟩, rfl, -⟩
      exact ⟨hk, by simpa using hs, hf⟩
    · rintro ⟨hk, hs, hf⟩
      exact ⟨a, ⟨⟨hk, by simpa using hs⟩, hf⟩, rfl, trivial⟩
  · intro pr hpr
    simp only [serverStep, List.mem_map] at hpr
    obtain ⟨x, -, rfl⟩ := hpr
    rfl
  · intro hmem
    simp only [serverStep, List.map_map, List.mem_map, Function.comp] at hmem
    obtain ⟨x, hx, rfl⟩ := hmem
    have := (List.mem_filter.1 (List.mem_filter.1 hx).1).2
    simp at this
  · have hk : ((registrySet r sender t1).map Prod.fst).Nodup :=
      registrySet_keys_nodup t1 hnd
    simp only [serverStep, List.map_map, Function.comp]
    have : (fun pr : Addr × Payload => pr.1) ∘ (fun a : Addr => (a, data)) = id := rfl
    simpa [this] using (hk.filter _).filter _
  · intro fails2 b hagree
    simp only [serverStep, List.filter_map, List.filter_filter]
    congr 1
    congr 1
    apply List.filter_congr
    intro x _
    by_cases hxb : x.1 = b
    · simp [hxb]
    · simp [hagree x.1 hxb]

/-- C3 witness: a concrete datagram from a fresh sender in a one-peer
registry. -/
theorem claim_C3_witness :
    ((("a", 1) : Addr), (5 : ℚ)) ∈ registrySet [((("b", 2) : Addr), 0)] ("a", 1) 5 ∧
    (((("b", 2) : Addr), [7]) ∈
      (serverStep (fun _ => false) [((("b", 2) : Addr), 0)] ("a", 1) [7] 5 5).2 ↔
      (("b", 2) : Addr) ∈ (registrySet [((("b", 2) : Addr), 0)] ("a", 1) 5).map Prod.fst ∧
      (("b", 2) : Addr) ≠ ("a", 1) ∧ (fun _ : Addr => false) ("b", 2) = false) := by
  have h := claim_C3_server_fanout (fun _ => false) [((("b", 2) : Addr), 0)]
    ("a", 1) [7] 5 5 (by simp)
  exact ⟨h.1, h.2.1 ("b", 2)⟩

/-- C4 counterexample: with an empty registry, peer `a` sends at time 0;
peer `b` sends at time 40.  At that moment `a` has been idle for
40 s > 30 s, yet `a` is still among the fan-out targets of `b`'s datagram
(eviction only runs after the fan-out), refuting «a peer that has been
idle longer than 30 seconds is never among the fan-out targets of a
subsequently processed datagram». -/
theorem claim_C4_counterexample :
    ((("a", 1) : Addr), [1]) ∈
      (serverStep (fun _ => false)
        ((serverStep (fun _ => false) [] (("a", 1) : Addr) [0] 0 0).1)
        (("b", 2) : Addr) [1] 40 40).2 ∧
    (40 : ℚ) - 0 > 30 := by
  constructor
  · simp [serverStep, registrySet]
  · norm_num

/-- C4 (amended): after the loop finishes processing a datagram, the
registry contains no peer whose last-seen age, at the cleanup time,
exceeds 30 seconds; and a peer absent from the registry when a datagram
arrives (in particular one evicted as stale by an earlier cleanup) is not
among that datagram's fan-out targets unless it is the sender.  (The code
does not guarantee more: a peer that became stale since the previous
cleanup is still served by the current fan-out, as eviction runs after
it — see the counterexample.) -/
theorem claim_C4_stale_eviction (fails : Addr → Bool) (r : Registry)
    (sender : Addr) (data : Payload) (t1 t2 : ℚ) :
    (∀ p ∈ (serverStep fails r sender data t1 t2).1, t2 - p.2 ≤ 30) ∧
    (∀ q : Addr, q ∉ r.map Prod.fst → q ≠ sender →
      ∀ d : Payload, (q, d) ∉ (serverStep fails r sender data t1 t2).2) := by
  constructor
  · intro p hp
    have := (List.mem_filter.1 hp).2
    simpa using of_decide_eq_true this
  · intro q hq hqs d hmem
    simp only [serverStep, List.mem_map] at hmem
    obtain ⟨x, hx, hx2⟩ := hmem
    have hxq : x = q := congrArg Prod.fst hx2
    subst hxq
    have hk := (List.mem_filter.1 (List.mem_filter.1 hx).1).1
    rcases registrySet_key_mem hk with h | h
    · exact hq h
    · exact hqs h

/-- C4 witness for the amended claim: concrete one-datagram run. -/
theorem claim_C4_witness :
    (∀ p ∈ (serverStep (fun _ => false) [((("b", 2) : Addr), 0)] (("a", 1) : Addr) [9] 40 40).1,
      (40 : ℚ) - p.2 ≤ 30) ∧
    ((("c", 3) : Addr), [9]) ∉
      (serverStep (fun _ => false) [((("b", 2) : Addr), 0)] (("a", 1) : Addr) [9] 40 40).2 := by
  have h := claim_C4_stale_eviction (fun _ => false) [((("b", 2) : Addr), 0)]
    ("a", 1) [9] 40 40
  exact ⟨h.1, h.2 ("c", 3) (by simp) (by simp) [9]⟩

/-- C5: `start()` is idempotent on server and client: while `running` is
set, a second call returns the state unchanged — in particular it spawns
no second background receive thread. -/
theorem claim_C5_start_idempotent (s c : NetState)
    (hs : s.running = true) (hc : c.running = true) :
    serverStart s = s ∧ clientStart c = c := by
  simp [serverStart, clientStart, hs, hc]

/-- C5 witness: a running instance with one receive thread. -/
theorem claim_C5_witness :
    serverStart ⟨true, 1, false⟩ = ⟨true, 1, false⟩ ∧
    clientStart ⟨true, 1, false⟩ = ⟨true, 1, false⟩ :=
  claim_C5_start_idempotent ⟨true, 1, false⟩ ⟨true, 1, false⟩ rfl rfl

/-- C6: `stop()` never raises — on any state (including the
freshly-constructed, never-started `netInit`) and any outcome of the
underlying close/join calls it returns normally with the socket closed,
and stopping again from the resulting state also returns normally. -/
theorem claim_C6_stop_safe (s : NetState) (j o : Bool) :
    (∃ s', serverStop s o = .ok s' ∧ s'.sockClosed = true ∧ s'.running = false ∧
      ∀ o2 : Bool, ∃ s'', serverStop s' o2 = .ok s'' ∧ s''.sockClosed = true) ∧
    (∃ c', clientStop s j o = .ok c' ∧ c'.sockClosed = true ∧ c'.running = false ∧
      ∀ j2 o2 : Bool, ∃ c'', clientStop c' j2 o2 = .ok c'' ∧ c''.sockClosed = true) := by
  have hs : serverStop s o = .ok { s with running := false, sockClosed := true } := by
    cases o <;> rfl
  have hc : clientStop s j o = .ok { s with running := false, sockClosed := true } := by
    cases j <;> cases o <;> rfl
  refine ⟨⟨_, hs, rfl, rfl, ?_⟩, ⟨_, hc, rfl, rfl, ?_⟩⟩
  · intro o2
    exact ⟨_, by cases o2 <;> rfl, rfl⟩
  · intro j2 o2
    exact ⟨_, by cases j2 <;> cases o2 <;> rfl, rfl⟩

/-- C7 counterexample: `[0xFF]` is malformed UTF-8, yet the receive loop
does invoke the handler for it — `decode(..., errors="ignore")` never
raises, it strips the invalid bytes (here yielding `""`), and the next
datagram is processed normally.  This refutes «the message handler is not
invoked for that datagram». -/
theorem claim_C7_counterexample :
    ValidUtf8 [255] = false ∧ listenRun [[255], [65]] = ["", "A"] := by
  constructor
  · simp [ValidUtf8, utf8DecodeStrict, utf8Step]
  · simp [listenRun, listenDatagram, utf8DecodeIgnore, utf8Step]

/-- C7 (amended): a malformed datagram is handled non-fatally — the
invalid byte sequences (not the whole payload) are dropped by the
`ignore` error handler, the handler is invoked with the remaining decoded
text, and the loop continues with subsequent datagrams. -/
theorem claim_C7_decode_nonfatal (data : Payload) (rest : List Payload)
    (hbad : ValidUtf8 data = false) :
    listenRun (data :: rest) =
      String.mk (utf8DecodeIgnore data) :: listenRun rest := by
  simp [listenRun, listenDatagram]

/-- C7 witness for the amended claim, at the malformed payload `[0xFF]`. -/
theorem claim_C7_witness :
    ValidUtf8 [255] = false ∧
    listenRun [[255], [65]] = String.mk (utf8DecodeIgnore [255]) :: listenRun [[65]] :=
  ⟨by simp [ValidUtf8, utf8DecodeStrict, utf8Step],
    claim_C7_decode_nonfatal [255] [[65]] (by simp [ValidUtf8, utf8DecodeStrict, utf8Step])⟩

/-- C10: `is_walkable` is total (it is a Lean function into `Bool`) and
returns `false` for every out-of-range cell index — negative, at or past
the column/row counts, or with a flat offset beyond the tile list (the
`IndexError` branch). -/
theorem claim_C10_is_walkable_total (w : World) (cx cy : ℤ) :
    ((cx < 0 ∨ cy < 0 ∨ w.cols ≤ cx ∨ w.rows ≤ cy) → is_walkable w cx cy = false) ∧
    (w.tiles.length ≤ (cy * w.cols + cx).toNat → is_walkable w cx cy = false) := by
  constructor
  · intro h
    simp only [is_walkable]
    rw [if_pos]
    exact h
  · intro h
    simp only [is_walkable]
    split
    · rfl
    · rw [List.get?_eq_none.2 h]

/-- C10 witness: a negative index, and an in-bounds index whose flat
offset exceeds the tile list length. -/
theorem claim_C10_witness :
    is_walkable ⟨32, 2, 2, [⟨"grass"⟩]⟩ (-1) 0 = false ∧
    is_walkable ⟨32, 2, 2, [⟨"grass"⟩]⟩ 1 1 = false := by
  constructor
  · exact (claim_C10_is_walkable_total ⟨32, 2, 2, [⟨"grass"⟩]⟩ (-1) 0).1
      (Or.inl (by norm_num))
  · exact (claim_C10_is_walkable_total ⟨32, 2, 2, [⟨"grass"⟩]⟩ 1 1).2 (by norm_num)

end SF

namespace SF

/-! ## Supporting lemmas: the entry order and list indexing -/

/-- `entLt` as a decidable proposition. -/
theorem entLt_eq_decide (a b : Ent) :
    entLt a b = decide (a.1 < b.1 ∨ a.1 = b.1 ∧
      (a.2.1 < b.2.1 ∨ a.2.1 = b.2.1 ∧ a.2.2 < b.2.2)) := by
  simp [entLt]

theorem entLt_irrefl (a : Ent) : entLt a a = false := by
  simp [entLt]

theorem entLt_asymm {a b : Ent} (h : entLt a b = true) : entLt b a = false := by
  rw [entLt_eq_decide] at h ⊢
  rw [decide_eq_true_eq] at h
  rw [decide_eq_false_iff_not]
  omega

theorem entLt_trans {a b c : Ent} (h1 : entLt a b = true) (h2 : entLt b c = true) :
    entLt a c = true := by
  rw [entLt_eq_decide] at h1 h2 ⊢
  rw [decide_eq_true_eq] at h1 h2
  rw [decide_eq_true_eq]
  omega

theorem entLt_false_trans {a b c : Ent} (h1 : entLt b a = false)
    (h2 : entLt c b = false) : entLt c a = false := by
  rw [entLt_eq_decide] at h1 h2 ⊢
  rw [decide_eq_false_iff_not] at h1 h2
  rw [decide_eq_false_iff_not]
  omega

theorem entLt_connex {a b : Ent} (h1 : entLt a b = false) (h2 : entLt b a = false) :
    a = b := by
  rw [entLt_eq_decide] at h1 h2
  rw [decide_eq_false_iff_not] at h1 h2
  have h3 : a.1 = b.1 ∧ a.2.1 = b.2.1 ∧ a.2.2 = b.2.2 := by omega
  exact Prod.ext h3.1 (Prod.ext h3.2.1 h3.2.2)

/-- `a < b` is false exactly when `b ≤ a` in the total entry order. -/
theorem entLt_false_of_lt_or_eq {a b : Ent} (h : entLt a b = true ∨ a = b) :
    entLt b a = false := by
  rcases h with h | rfl
  · exact entLt_asymm h
  · exact entLt_irrefl a

theorem getD_set_self {l : List Ent} {i : ℕ} {x : Ent} (h : i < l.length) :
    (l.set i x).getD i default = x := by
  simp [List.getD_eq_getElem?_getD, List.getElem?_set_self, h]

theorem getD_set_ne {l : List Ent} {i j : ℕ} {x : Ent} (h : i ≠ j) :
    (l.set i x).getD j default = l.getD j default := by
  simp [List.getD_eq_getElem?_getD, List.getElem?_set_ne h]

/-! ## Supporting lemmas: the binary-heap invariant -/

/-- The min-heap invariant of CPython's `heapq`: no child is smaller than
its parent (children of index `i` sit at `2i+1` and `2i+2`). -/
def IsHeap (l : List Ent) : Prop :=
  ∀ i j : ℕ, (j = 2 * i + 1 ∨ j = 2 * i + 2) → j < l.length →
    entLt (l.getD j default) (l.getD i default) = false

theorem isHeap_nil : IsHeap [] := by
  intro i j _ hj
  simp at hj

theorem isHeap_singleton (x : Ent) : IsHeap [x] := by
  intro i j hij hj
  simp at hj
  omega

/-- In a heap, no element is smaller than the root. -/
theorem IsHeap.root_le {l : List Ent} (h : IsHeap l) :
    ∀ j, j < l.length → entLt (l.getD j default) (l.getD 0 default) = false := by
  intro j
  induction j using Nat.strong_induction_on with
  | _ j ih =>
    intro hj
    rcases Nat.eq_zero_or_pos j with rfl | hpos
    · exact entLt_irrefl _
    · have hchild : j = 2 * ((j - 1) / 2) + 1 ∨ j = 2 * ((j - 1) / 2) + 2 := by omega
      have h1 := h ((j - 1) / 2) j hchild hj
      have h2 := ih ((j - 1) / 2) (by omega) (lt_trans (by omega) hj)
      exact entLt_false_trans h2 h1

end SF
namespace SF

theorem entLt_false_helper {a b c : Ent} (h1 : entLt c b = false)
    (h2 : entLt a b = true) : entLt c a = false := by
  rw [entLt_eq_decide] at h1 h2 ⊢
  rw [decide_eq_false_iff_not] at h1
  rw [decide_eq_true_eq] at h2
  rw [decide_eq_false_iff_not]
  omega

/-- Membership characterisation through `getD` (lists of heap entries). -/
theorem mem_iff_getD (l : List Ent) (z : Ent) :
    z ∈ l ↔ ∃ n : ℕ, n < l.length ∧ l.getD n default = z := by
  rw [List.mem_iff_getElem]
  constructor
  · rintro ⟨n, hn, rfl⟩
    exact ⟨n, hn, by simp [List.getD_eq_getElem?_getD, List.getElem?_eq_getElem hn]⟩
  · rintro ⟨n, hn, hz⟩
    exact ⟨n, hn, by simpa [List.getD_eq_getElem?_getD, List.getElem?_eq_getElem hn] using hz⟩

theorem getD_mem {l : List Ent} {n : ℕ} (hn : n < l.length) :
    l.getD n default ∈ l :=
  (mem_iff_getD l _).2 ⟨n, hn, rfl⟩

theorem set_mem_of_mem {l : List Ent} {z : Ent} (i : ℕ) (y : Ent)
    (hz : z ∈ l) (hi : i < l.length) :
    z = l.getD i default ∨ z ∈ l.set i y := by
  obtain ⟨n, hn, hzn⟩ := (mem_iff_getD l z).1 hz
  rcases eq_or_ne n i with rfl | hne
  · exact Or.inl hzn.symm
  · refine Or.inr ((mem_iff_getD _ z).2 ⟨n, by simpa using hn, ?_⟩)
    rw [getD_set_ne (Ne.symm hne)]
    exact hzn

/-- The index permutation performed by writing `l[j]` to slot `i` and
`l[i]` to slot `j`. -/
def swapIdx (i j n : ℕ) : ℕ := if n = j then i else if n = i then j else n

theorem swapIdx_lt {i j n len : ℕ} (hi : i < len) (hj : j < len) (hn : n < len) :
    swapIdx i j n < len := by
  unfold swapIdx
  split_ifs <;> omega

theorem swapIdx_invol (i j n : ℕ) : swapIdx i j (swapIdx i j n) = n := by
  unfold swapIdx
  split_ifs <;> omega

theorem getD_swap (l : List Ent) (i j : ℕ) (hi : i < l.length)
    (hj : j < l.length) (n : ℕ) (hn : n < l.length) :
    ((l.set i (l.getD j default)).set j (l.getD i default)).getD n default =
      l.getD (swapIdx i j n) default := by
  unfold swapIdx
  by_cases hnj : n = j
  · subst hnj
    rw [getD_set_self (by simpa using hn)]
    simp
  · rw [getD_set_ne (fun h => hnj h.symm)]
    by_cases hni : n = i
    · subst hni
      rw [getD_set_self hn]
      simp [hnj]
    · rw [getD_set_ne (fun h => hni h.symm)]
      simp [hnj, hni]

/-- Swapping two positions preserves membership. -/
theorem mem_set_swap (l : List Ent) (i j : ℕ) (hi : i < l.length)
    (hj : j < l.length) (z : Ent) :
    z ∈ (l.set i (l.getD j default)).set j (l.getD i default) ↔ z ∈ l := by
  have hlen : ((l.set i (l.getD j default)).set j (l.getD i default)).length
      = l.length := by simp
  constructor
  · intro hz
    obtain ⟨n, hn, hzn⟩ := (mem_iff_getD _ z).1 hz
    rw [hlen] at hn
    rw [getD_swap l i j hi hj n hn] at hzn
    exact hzn ▸ getD_mem (swapIdx_lt hi hj hn)
  · intro hz
    obtain ⟨n, hn, hzn⟩ := (mem_iff_getD l z).1 hz
    refine (mem_iff_getD _ z).2 ⟨swapIdx i j n, by rw [hlen]; exact swapIdx_lt hi hj hn, ?_⟩
    rw [getD_swap l i j hi hj _ (swapIdx_lt hi hj hn), swapIdx_invol]
    exact hzn


end SF

namespace SF

/-- Invariant of the bubble-up phase (`_siftdown`): the virtual array (the
heap with `newitem` at the hole `pos`) satisfies the heap property on all
parent/child pairs except possibly `(parent pos, pos)`, and additionally
the hole's grandparent already dominates the hole's children. -/
def HeapExceptUp (l : List Ent) (pos : ℕ) : Prop :=
  (∀ i j : ℕ, (j = 2 * i + 1 ∨ j = 2 * i + 2) → j < l.length → j ≠ pos →
    entLt (l.getD j default) (l.getD i default) = false) ∧
  (∀ j : ℕ, (j = 2 * pos + 1 ∨ j = 2 * pos + 2) → j < l.length → 0 < pos →
    entLt (l.getD j default) (l.getD ((pos - 1) / 2) default) = false)

theorem siftdownLoop_spec (newitem : Ent) :
    ∀ (heap : List Ent) (startpos pos : ℕ), startpos = 0 → pos < heap.length →
      HeapExceptUp (heap.set pos newitem) pos →
      IsHeap (siftdownLoop newitem heap startpos pos) ∧
      (siftdownLoop newitem heap startpos pos).length = heap.length ∧
      (∀ z : Ent, z ∈ siftdownLoop newitem heap startpos pos ↔
        z ∈ heap.set pos newitem) := by
  intro heap startpos pos
  induction heap, startpos, pos using siftdownLoop.induct newitem with
  | case1 heap startpos pos h parentpos parent hlt ih =>
    intro hsp hpos hhe
    rw [siftdownLoop]
    rw [dif_pos h]
    simp only [if_pos hlt]
    have hppdef : parentpos = (pos - 1) / 2 := rfl
    have hppos : parentpos < pos := by omega
    have hpplen : parentpos < heap.length := lt_trans hppos hpos
    have hchild : pos = 2 * parentpos + 1 ∨ pos = 2 * parentpos + 2 := by omega
    have hpppos : 0 < pos := by omega
    set V := heap.set pos newitem with hV
    have hVlen : V.length = heap.length := by simp [hV]
    have hVpos : V.getD pos default = newitem := getD_set_self hpos
    have hVpp : V.getD parentpos default = parent := by
      rw [getD_set_ne (by omega : pos ≠ parentpos)]
    have hswap : (heap.set pos parent).set parentpos newitem =
        (V.set pos (V.getD parentpos default)).set parentpos (V.getD pos default) := by
      rw [hVpos, hVpp, hV, List.set_set]
    obtain ⟨ih1, ih2, ih3⟩ := ih hsp (by simpa using hpplen) (by
      rw [hswap]
      constructor
      · intro i j hij hjlen hjpp
        rw [List.length_set, List.length_set, hVlen] at hjlen
        rw [getD_swap V pos parentpos (by omega) (by omega) j (by omega)]
        rw [getD_swap V pos parentpos (by omega) (by omega) i
          (by have : i < j := by omega
              omega)]
        by_cases hj_pos : j = pos
        · -- pair (parentpos → pos): holds because newitem < parent
          have hi_pp : i = parentpos := by omega
          rw [show swapIdx pos parentpos j = parentpos by
            unfold swapIdx; split_ifs <;> omega]
          rw [show swapIdx pos parentpos i = pos by
            unfold swapIdx; split_ifs <;> omega]
          rw [hVpp, hVpos]
          exact entLt_asymm hlt
        · by_cases hi_pos : i = pos
          · -- pair (pos → child of pos): from the grandparent clause
            rw [show swapIdx pos parentpos j = j by
              unfold swapIdx; split_ifs <;> omega]
            rw [show swapIdx pos parentpos i = parentpos by
              unfold swapIdx; split_ifs <;> omega]
            have := hhe.2 j (by omega) (by omega) hpppos
            rwa [← hppdef] at this
          · by_cases hi_pp : i = parentpos
            · -- pair (parentpos → sibling of pos): newitem < parent ≤ sibling
              rw [show swapIdx pos parentpos j = j by
                unfold swapIdx; split_ifs <;> omega]
              rw [show swapIdx pos parentpos i = pos by
                unfold swapIdx; split_ifs <;> omega]
              rw [hVpos]
              have hsib := hhe.1 i j hij (by omega) hj_pos
              rw [hi_pp, hVpp] at hsib
              exact entLt_false_helper hsib hlt
            · -- pair away from both modified slots
              rw [show swapIdx pos parentpos j = j by
                unfold swapIdx; split_ifs <;> omega]
              rw [show swapIdx pos parentpos i = i by
                unfold swapIdx; split_ifs <;> omega]
              exact hhe.1 i j hij (by omega) hj_pos
      · intro j hij hjlen hpp0
        rw [List.length_set, List.length_set, hVlen] at hjlen
        rw [getD_swap V pos parentpos (by omega) (by omega) j (by omega)]
        rw [getD_swap V pos parentpos (by omega) (by omega) ((parentpos - 1) / 2)
          (by omega)]
        rw [show swapIdx pos parentpos ((parentpos - 1) / 2) = (parentpos - 1) / 2 by
          unfold swapIdx; split_ifs <;> omega]
        have hpp_child : parentpos = 2 * ((parentpos - 1) / 2) + 1 ∨
            parentpos = 2 * ((parentpos - 1) / 2) + 2 := by omega
        by_cases hj_pos : j = pos
        · -- the hole itself now holds the old parent value
          rw [show swapIdx pos parentpos j = parentpos by
            unfold swapIdx; split_ifs <;> omega]
          exact hhe.1 ((parentpos - 1) / 2) parentpos hpp_child (by omega) (by omega)
        · -- the sibling of the hole: sibling ≥ parent ≥ grandparent
          rw [show swapIdx pos parentpos j = j by
            unfold swapIdx; split_ifs <;> omega]
          have h1 := hhe.1 parentpos j (by omega) (by omega) hj_pos
          have h2 := hhe.1 ((parentpos - 1) / 2) parentpos hpp_child (by omega) (by omega)
          exact entLt_false_trans h2 h1)
    refine ⟨ih1, ?_, ?_⟩
    · rw [ih2]; simp
    · intro z
      rw [ih3 z, hswap, mem_set_swap V pos parentpos (by omega) (by omega) z]
  | case2 heap startpos pos h parentpos parent hnlt =>
    intro hsp hpos hhe
    rw [siftdownLoop]
    rw [dif_pos h]
    simp only [if_neg hnlt]
    simp only [Bool.not_eq_true] at hnlt
    refine ⟨?_, by simp, fun z => trivial⟩
    intro i j hij hjlen
    rw [List.length_set] at hjlen
    by_cases hj_pos : j = pos
    · have hi_pp : i = (pos - 1) / 2 := by omega
      rw [hj_pos, hi_pp, getD_set_self hpos,
        getD_set_ne (by omega : pos ≠ (pos - 1) / 2)]
      exact hnlt
    · exact hhe.1 i j hij (by simpa using hjlen) hj_pos
  | case3 heap startpos pos h =>
    intro hsp hpos hhe
    rw [siftdownLoop]
    rw [dif_neg h]
    have hpos0 : pos = 0 := by omega
    refine ⟨?_, by simp, fun z => Iff.of_eq rfl⟩
    intro i j hij hjlen
    exact hhe.1 i j hij (by simpa using hjlen) (by omega)


/-- Invariant of the descent phase (`_siftup`): the virtual array (heap
with `newitem` at the hole `pos`) satisfies the heap property on all pairs
not touching the hole, and the hole's parent dominates the hole's
children. -/
def HeapExceptDown (l : List Ent) (pos : ℕ) : Prop :=
  (∀ i j : ℕ, (j = 2 * i + 1 ∨ j = 2 * i + 2) → j < l.length → i ≠ pos → j ≠ pos →
    entLt (l.getD j default) (l.getD i default) = false) ∧
  (∀ j : ℕ, (j = 2 * pos + 1 ∨ j = 2 * pos + 2) → j < l.length → 0 < pos →
    entLt (l.getD j default) (l.getD ((pos - 1) / 2) default) = false)

theorem siftupLoop_spec (newitem : Ent) :
    ∀ (heap : List Ent) (startpos pos : ℕ), startpos = 0 → pos < heap.length →
      HeapExceptDown (heap.set pos newitem) pos →
      IsHeap (siftupLoop newitem heap startpos pos) ∧
      (siftupLoop newitem heap startpos pos).length = heap.length ∧
      (∀ z : Ent, z ∈ siftupLoop newitem heap startpos pos ↔
        z ∈ heap.set pos newitem) := by
  intro heap startpos pos
  induction heap, startpos, pos using siftupLoop.induct newitem with
  | case1 heap startpos pos h childpos rightpos hr ih =>
    intro hsp hpos hhe
    rw [siftupLoop]
    rw [dif_pos h]
    simp only [dif_pos hr]
    have hcdef : childpos = 2 * pos + 1 := rfl
    have hrdef : rightpos = childpos + 1 := rfl
    have hrlen : rightpos < heap.length := hr.1
    have hsmall : entLt (heap.getD childpos default) (heap.getD rightpos default)
        = false := hr.2
    set V := heap.set pos newitem with hV
    have hVlen : V.length = heap.length := by simp [hV]
    have hVpos : V.getD pos default = newitem := getD_set_self hpos
    have hVc : V.getD rightpos default = heap.getD rightpos default :=
      getD_set_ne (by omega)
    have hVl : V.getD childpos default = heap.getD childpos default :=
      getD_set_ne (by omega)
    have hswap : (heap.set pos (heap.getD rightpos default)).set rightpos newitem =
        (V.set pos (V.getD rightpos default)).set rightpos (V.getD pos default) := by
      rw [hVpos, hVc, hV, List.set_set]
    obtain ⟨ih1, ih2, ih3⟩ := ih hsp (by simpa using hrlen) (by
      rw [hswap]
      constructor
      · intro i j hij hjlen hic hjc
        rw [List.length_set, List.length_set, hVlen] at hjlen
        rw [getD_swap V pos rightpos (by omega) (by omega) j (by omega)]
        rw [getD_swap V pos rightpos (by omega) (by omega) i
          (by have : i < j := by omega
              omega)]
        by_cases hj_pos : j = pos
        · -- pair (parent pos → pos): hole's parent dominates hole's children
          have hppos : 0 < pos := by omega
          have hi_pp : i = (pos - 1) / 2 := by omega
          rw [show swapIdx pos rightpos j = rightpos by
            unfold swapIdx; split_ifs <;> omega]
          rw [show swapIdx pos rightpos i = i by
            unfold swapIdx; split_ifs <;> omega]
          have := hhe.2 rightpos (by omega) (by omega) hppos
          rwa [hi_pp]
        · by_cases hi_pos : i = pos
          · -- pair (pos → sibling): the chosen child is the smaller one
            have hj_sib : j = childpos := by omega
            rw [show swapIdx pos rightpos j = j by
              unfold swapIdx; split_ifs <;> omega]
            rw [show swapIdx pos rightpos i = rightpos by
              unfold swapIdx; split_ifs <;> omega]
            rw [hj_sib, hVl, hVc]
            exact hsmall
          · rw [show swapIdx pos rightpos j = j by
              unfold swapIdx; split_ifs <;> omega]
            rw [show swapIdx pos rightpos i = i by
              unfold swapIdx; split_ifs <;> omega]
            exact hhe.1 i j hij (by omega) hi_pos hj_pos
      · intro j hij hjlen hc0
        rw [List.length_set, List.length_set, hVlen] at hjlen
        rw [getD_swap V pos rightpos (by omega) (by omega) j (by omega)]
        rw [getD_swap V pos rightpos (by omega) (by omega) ((rightpos - 1) / 2)
          (by omega)]
        have hparc : (rightpos - 1) / 2 = pos := by omega
        rw [show swapIdx pos rightpos ((rightpos - 1) / 2) = rightpos by
          unfold swapIdx; split_ifs <;> omega]
        rw [show swapIdx pos rightpos j = j by
          unfold swapIdx; split_ifs <;> omega]
        exact hhe.1 rightpos j (by omega) (by omega) (by omega) (by omega))
    refine ⟨ih1, ?_, ?_⟩
    · rw [ih2]; simp
    · intro z
      rw [ih3 z, hswap, mem_set_swap V pos rightpos (by omega) (by omega) z]
  | case2 heap startpos pos h childpos rightpos hr ih =>
    intro hsp hpos hhe
    rw [siftupLoop]
    rw [dif_pos h]
    simp only [dif_neg hr]
    have hcdef : childpos = 2 * pos + 1 := rfl
    set V := heap.set pos newitem with hV
    have hVlen : V.length = heap.length := by simp [hV]
    have hVpos : V.getD pos default = newitem := getD_set_self hpos
    have hVl : V.getD childpos default = heap.getD childpos default :=
      getD_set_ne (by omega)
    have hswap : (heap.set pos (heap.getD childpos default)).set childpos newitem =
        (V.set pos (V.getD childpos default)).set childpos (V.getD pos default) := by
      rw [hVpos, hVl, hV, List.set_set]
    obtain ⟨ih1, ih2, ih3⟩ := ih hsp (by simpa using h) (by
      rw [hswap]
      constructor
      · intro i j hij hjlen hic hjc
        rw [List.length_set, List.length_set, hVlen] at hjlen
        rw [getD_swap V pos childpos (by omega) (by omega) j (by omega)]
        rw [getD_swap V pos childpos (by omega) (by omega) i
          (by have : i < j := by omega
              omega)]
        by_cases hj_pos : j = pos
        · have hppos : 0 < pos := by omega
          have hi_pp : i = (pos - 1) / 2 := by omega
          rw [show swapIdx pos childpos j = childpos by
            unfold swapIdx; split_ifs <;> omega]
          rw [show swapIdx pos childpos i = i by
            unfold swapIdx; split_ifs <;> omega]
          have := hhe.2 childpos (by omega) (by omega) hppos
          rwa [hi_pp]
        · by_cases hi_pos : i = pos
          · -- sibling is the right child (if in range): left was smaller
            have hj_sib : j = rightpos := by omega
            rw [show swapIdx pos childpos j = j by
              unfold swapIdx; split_ifs <;> omega]
            rw [show swapIdx pos childpos i = childpos by
              unfold swapIdx; split_ifs <;> omega]
            have hrlen : rightpos < heap.length := by omega
            have hltlr : entLt (heap.getD childpos default)
                (heap.getD rightpos default) = true := by
              by_contra hcon
              exact hr ⟨hrlen, by simpa using hcon⟩
            rw [hj_sib, hVl]
            have : V.getD rightpos default = heap.getD rightpos default :=
              getD_set_ne (by omega)
            rw [this]
            exact entLt_asymm hltlr
          · rw [show swapIdx pos childpos j = j by
              unfold swapIdx; split_ifs <;> omega]
            rw [show swapIdx pos childpos i = i by
              unfold swapIdx; split_ifs <;> omega]
            exact hhe.1 i j hij (by omega) hi_pos hj_pos
      · intro j hij hjlen hc0
        rw [List.length_set, List.length_set, hVlen] at hjlen
        rw [getD_swap V pos childpos (by omega) (by omega) j (by omega)]
        rw [getD_swap V pos childpos (by omega) (by omega) ((childpos - 1) / 2)
          (by omega)]
        rw [show swapIdx pos childpos ((childpos - 1) / 2) = childpos by
          unfold swapIdx; split_ifs <;> omega]
        rw [show swapIdx pos childpos j = j by
          unfold swapIdx; split_ifs <;> omega]
        exact hhe.1 childpos j (by omega) (by omega) (by omega) (by omega))
    refine ⟨ih1, ?_, ?_⟩
    · rw [ih2]; simp
    · intro z
      rw [ih3 z, hswap, mem_set_swap V pos childpos (by omega) (by omega) z]
  | case3 heap startpos pos h =>
    intro hsp hpos hhe
    rw [siftupLoop]
    rw [dif_neg h]
    have hd := siftdownLoop_spec newitem (heap.set pos newitem) startpos pos hsp
      (by simpa using hpos) (by
        rw [List.set_set]
        constructor
        · intro i j hij hjlen hjpos
          by_cases hi_pos : i = pos
          · exfalso
            rw [List.length_set] at hjlen
            omega
          · exact hhe.1 i j hij hjlen hi_pos hjpos
        · intro j hij hjlen hpos0
          exfalso
          rw [List.length_set] at hjlen
          omega)
    obtain ⟨h1, h2, h3⟩ := hd
    refine ⟨h1, ?_, ?_⟩
    · rw [h2]; simp
    · intro z
      rw [h3 z, List.set_set]


theorem getD_append_left {l : List Ent} (x : Ent) {k : ℕ} (hk : k < l.length) :
    (l ++ [x]).getD k default = l.getD k default := by
  simp [List.getD_eq_getElem?_getD, List.getElem?_append_left hk]

theorem set_append_last (l : List Ent) (x y : Ent) :
    (l ++ [x]).set l.length y = l ++ [y] := by
  induction l with
  | nil => rfl
  | cons a t ih => simp [List.set, ih]

theorem heappush_spec (l : List Ent) (x : Ent) (hl : IsHeap l) :
    IsHeap (heappush l x) ∧ (heappush l x).length = l.length + 1 ∧
    (∀ z : Ent, z ∈ heappush l x ↔ z ∈ l ∨ z = x) := by
  unfold heappush
  have hpre : HeapExceptUp ((l ++ [x]).set l.length x) l.length := by
    rw [set_append_last]
    constructor
    · intro i j hij hjlen hjne
      simp only [List.length_append, List.length_singleton] at hjlen
      have hj : j < l.length := by omega
      have hi : i < l.length := by omega
      rw [getD_append_left x hj, getD_append_left x hi]
      exact hl i j hij hj
    · intro j hij hjlen _
      simp only [List.length_append, List.length_singleton] at hjlen
      omega
  obtain ⟨h1, h2, h3⟩ := siftdownLoop_spec x (l ++ [x]) 0 l.length rfl (by simp) hpre
  refine ⟨h1, by simp [h2], ?_⟩
  intro z
  rw [h3 z, set_append_last]
  simp [or_comm]

theorem getD_dropLast {l : List Ent} {k : ℕ} (hk : k < l.length - 1) :
    l.dropLast.getD k default = l.getD k default := by
  have h1 : k < l.dropLast.length := by simp; omega
  have h2 : k < l.length := by omega
  simp [List.getD_eq_getElem?_getD, List.getElem?_eq_getElem h1,
    List.getElem?_eq_getElem h2, List.getElem_dropLast]

theorem getLastD_mem {l : List Ent} (h : l ≠ []) : l.getLastD default ∈ l := by
  rw [List.getLastD_eq_getLast? , List.getLast?_eq_getLast l h]
  simp [List.getLast_mem h]

theorem dropLast_append_getLastD {l : List Ent} (h : l ≠ []) :
    l.dropLast ++ [l.getLastD default] = l := by
  rw [List.getLastD_eq_getLast?, List.getLast?_eq_getLast l h]
  simp [List.dropLast_append_getLast h]

theorem heappop_spec (l : List Ent) (hl : IsHeap l) (hne : l ≠ []) :
    ∃ e l2, heappop l = some (e, l2) ∧ e = l.getD 0 default ∧ IsHeap l2 ∧
      l2.length = l.length - 1 ∧
      (∀ z : Ent, z ∈ l2 → z ∈ l) ∧ (∀ z : Ent, z ∈ l → z = e ∨ z ∈ l2) ∧
      (∀ z ∈ l, entLt z e = false) := by
  match l with
  | [] => exact absurd rfl hne
  | [a] =>
    refine ⟨a, [], rfl, rfl, isHeap_nil, rfl, by simp, by simp, ?_⟩
    intro z hz
    simp at hz
    rw [hz]
    exact entLt_irrefl a
  | x :: y :: rest =>
    set l : List Ent := x :: y :: rest with hldef
    set lastelt := l.getLastD default with hlast
    set body := l.dropLast with hbody
    have hblen : body.length = l.length - 1 := by simp [hbody]
    have hblen1 : 0 < body.length := by simp [hbody, hldef]
    have hb0 : body.getD 0 default = x := by
      simp [hbody, hldef, List.dropLast]
    have hll : body ++ [lastelt] = l := dropLast_append_getLastD (by simp [hldef])
    have hpre : HeapExceptDown ((body.set 0 lastelt).set 0 lastelt) 0 := by
      rw [List.set_set]
      constructor
      · intro i j hij hjlen hine hjne
        rw [List.length_set] at hjlen
        rw [getD_set_ne (fun hh => hjne hh.symm), getD_set_ne (fun hh => hine hh.symm)]
        have hj2 : j < l.length - 1 := by omega
        have hi2 : i < l.length - 1 := by omega
        rw [hbody, getD_dropLast hj2, getD_dropLast hi2]
        exact hl i j hij (by omega)
      · intro j hij hjlen h0
        omega
    obtain ⟨h1, h2, h3⟩ := siftupLoop_spec lastelt (body.set 0 lastelt) 0 0 rfl
      (by simpa using hblen1) hpre
    refine ⟨x, _, rfl, rfl, h1, ?_, ?_, ?_, ?_⟩
    · rw [h2]
      simp [hblen]
    · intro z hz
      rw [h3 z, List.set_set] at hz
      rcases List.mem_or_eq_of_mem_set hz with hz2 | hz2
      · rw [← hll]
        exact List.mem_append_left _ hz2
      · rw [hz2, hlast]
        exact getLastD_mem (by simp [hldef])
    · intro z hz
      rw [← hll] at hz
      rcases List.mem_append.1 hz with hz2 | hz2
      · rcases set_mem_of_mem 0 lastelt hz2 hblen1 with hz3 | hz3
        · exact Or.inl (by rw [hz3, hb0])
        · refine Or.inr ?_
          rw [h3 z, List.set_set]
          exact hz3
      · simp only [List.mem_singleton] at hz2
        refine Or.inr ?_
        rw [h3 z, List.set_set, hz2]
        have : (body.set 0 lastelt).getD 0 default = lastelt := getD_set_self hblen1
        exact this ▸ getD_mem (by simpa using hblen1)
    · intro z hz
      obtain ⟨n, hn, hzn⟩ := (mem_iff_getD l z).1 hz
      have := hl.root_le n hn
      rw [hzn] at this
      exact this

end SF

namespace SF

/-! ## Supporting definitions: paths on the walkable grid graph

The specification vocabulary for the pathfinding claims: 4-connected
adjacency, walkable cell paths, and shortest path length. -/

/-- 4-connected grid adjacency. -/
def Adj (u v : Cell) : Prop :=
  (v.1 - u.1).natAbs + (v.2 - u.2).natAbs = 1

instance (u v : Cell) : Decidable (Adj u v) := by
  unfold Adj
  infer_instance

/-- A path of walkable cells from `a` to `b`: consecutive cells are
4-connected, every cell is walkable, the first is `a`, the last is `b`. -/
def IsPath (w : World) (a b : Cell) (p : List Cell) : Prop :=
  List.Chain' Adj p ∧ (∀ c ∈ p, is_walkable w c.1 c.2 = true) ∧
  p.head? = some a ∧ p.getLast? = some b

instance (w : World) (a b : Cell) (p : List Cell) : Decidable (IsPath w a b p) := by
  unfold IsPath
  infer_instance

/-- `n` is the length, counted in steps between cells, of a shortest
4-connected walkable path from `a` to `b` (a path of `n` steps visits
`n + 1` cells). -/
def ShortestLen (w : World) (a b : Cell) (n : ℕ) : Prop :=
  (∃ p, IsPath w a b p ∧ p.length = n + 1) ∧
  (∀ p, IsPath w a b p → n + 1 ≤ p.length)

/-- `b` is reachable from `a` through walkable cells. -/
def Reach (w : World) (a b : Cell) : Prop :=
  ∃ p, IsPath w a b p

theorem Adj.ne {u v : Cell} (h : Adj u v) : u ≠ v := by
  intro he
  rw [he] at h
  simp [Adj] at h

theorem heuristic_adj {u v : Cell} (h : Adj u v) : heuristic u v = 1 := by
  unfold Adj at h
  unfold heuristic
  omega

theorem heuristic_triangle (a b c : Cell) :
    heuristic a c ≤ heuristic a b + heuristic b c := by
  unfold heuristic
  omega

theorem heuristic_self (a : Cell) : heuristic a a = 0 := by
  unfold heuristic
  omega

theorem heuristic_symm (a b : Cell) : heuristic a b = heuristic b a := by
  unfold heuristic
  omega

theorem IsPath.ne_nil {w : World} {a b : Cell} {p : List Cell}
    (h : IsPath w a b p) : p ≠ [] := by
  intro he
  rw [he] at h
  simp [IsPath] at h

theorem IsPath.length_pos {w : World} {a b : Cell} {p : List Cell}
    (h : IsPath w a b p) : 0 < p.length :=
  List.length_pos.2 h.ne_nil

theorem isPath_single {w : World} {a : Cell}
    (h : is_walkable w a.1 a.2 = true) : IsPath w a a [a] := by
  refine ⟨by simp, ?_, rfl, rfl⟩
  intro c hc
  simp at hc
  rw [hc]
  exact h

theorem IsPath.walk_left {w : World} {a b : Cell} {p : List Cell}
    (h : IsPath w a b p) : is_walkable w a.1 a.2 = true := by
  apply h.2.1
  exact List.mem_of_mem_head? (Option.mem_def.2 h.2.2.1)

theorem IsPath.walk_right {w : World} {a b : Cell} {p : List Cell}
    (h : IsPath w a b p) : is_walkable w b.1 b.2 = true := by
  apply h.2.1
  exact List.mem_of_mem_getLast? (Option.mem_def.2 h.2.2.2)


/-- Extending a path by one 4-connected walkable step. -/
theorem isPath_append_step {w : World} {a b c : Cell} {p : List Cell}
    (h : IsPath w a b p) (hadj : Adj b c) (hwc : is_walkable w c.1 c.2 = true) :
    IsPath w a c (p ++ [c]) := by
  obtain ⟨hch, hwk, hhd, hlast⟩ := h
  refine ⟨?_, ?_, ?_, ?_⟩
  · rw [List.chain'_append]
    refine ⟨hch, by simp, ?_⟩
    intro x hx y hy
    simp at hy
    rw [hlast] at hx
    simp at hx
    rw [← hx, ← hy]
    exact hadj
  · intro d hd
    rcases List.mem_append.1 hd with hd | hd
    · exact hwk d hd
    · simp at hd
      rw [hd]
      exact hwc
  · rcases p with _ | ⟨x, t⟩
    · simp [IsPath] at hhd
    · simpa using hhd
  · simp

/-- The Manhattan distance between the endpoints of a 4-connected chain is
at most the number of steps. -/
theorem chain_manhattan :
    ∀ (p : List Cell) (a b : Cell), List.Chain' Adj p → p.head? = some a →
      p.getLast? = some b → heuristic a b + 1 ≤ p.length
  | [], a, b => by intro _ h; simp at h
  | [x], a, b => by
    intro _ hh hl
    simp at hh hl
    rw [← hh, ← hl] at *
    simp [heuristic_self]
  | x :: y :: t, a, b => by
    intro hch hh hl
    simp at hh
    have hch2 : List.Chain' Adj (y :: t) := hch.tail
    have hadj : Adj x y := List.chain'_cons.1 hch |>.1
    have hl2 : (y :: t).getLast? = some b := by
      rw [← hl]
      simp [List.getLast?]
    have ih := chain_manhattan (y :: t) y b hch2 rfl hl2
    have htri := heuristic_triangle a y b
    have hxy : heuristic a y = 1 := by
      rw [← hh]
      exact heuristic_adj hadj
    simp only [List.length_cons] at ih ⊢
    omega

/-- A shortest path bound transfers to the Manhattan heuristic. -/
theorem isPath_manhattan {w : World} {a b : Cell} {p : List Cell}
    (h : IsPath w a b p) : heuristic a b + 1 ≤ p.length :=
  chain_manhattan p a b h.1 h.2.2.1 h.2.2.2

/-- Concatenating a path to `x` with a path from `x`. -/
theorem isPath_comp {w : World} {a x b : Cell} {q r : List Cell}
    (hq : IsPath w a x q) (hr : IsPath w x b r) :
    IsPath w a b (q ++ r.tail) ∧ (q ++ r.tail).length = q.length + r.length - 1 := by
  obtain ⟨hch1, hwk1, hh1, hl1⟩ := hq
  obtain ⟨hch2, hwk2, hh2, hl2⟩ := hr
  rcases r with _ | ⟨x0, t⟩
  · simp at hh2
  · simp only [List.head?_cons, Option.some.injEq] at hh2
    subst hh2
    constructor
    · refine ⟨?_, ?_, ?_, ?_⟩
      · rw [List.chain'_append]
        refine ⟨hch1, hch2.tail, ?_⟩
        intro u hu v hv
        rw [hl1] at hu
        simp at hu
        subst hu
        rcases t with _ | ⟨v0, t2⟩
        · simp at hv
        · simp at hv
          subst hv
          exact (List.chain'_cons.1 hch2).1
      · intro d hd
        rcases List.mem_append.1 hd with hd | hd
        · exact hwk1 d hd
        · exact hwk2 d (List.mem_cons_of_mem _ hd)
      · rcases q with _ | ⟨u, s⟩
        · simp at hh1
        · simpa using hh1
      · rcases t with _ | ⟨v0, t2⟩
        · simp only [List.tail_cons, List.append_nil]
          rw [hl1]
          simpa using hl2
        · simp only [List.tail_cons]
          rw [List.getLast?_append_of_ne_nil _ (by simp)]
          simpa using hl2
    · simp

/-- An initial segment of a path is a path to the corresponding cell. -/
theorem isPath_take {w : World} {a b : Cell} {p : List Cell}
    (h : IsPath w a b p) (j : ℕ) (hj : j < p.length) :
    IsPath w a (p.getD j default) (p.take (j + 1)) ∧
    (p.take (j + 1)).length = j + 1 := by
  obtain ⟨hch, hwk, hh, hl⟩ := h
  have hlen : (p.take (j + 1)).length = j + 1 := by
    simp
    omega
  refine ⟨⟨hch.take _, ?_, ?_, ?_⟩, hlen⟩
  · intro c hc
    exact hwk c (List.mem_of_mem_take hc)
  · rcases p with _ | ⟨u, s⟩
    · simp at hh
    · simpa using hh
  · rw [List.getLast?_eq_getElem?]
    rw [hlen]
    simp only [Nat.add_sub_cancel]
    rw [List.getElem?_take, if_pos (by omega : j < j + 1), List.getD_eq_getElem?_getD,
      List.getElem?_eq_getElem hj]
    simp

/-- A final segment of a path is a path from the corresponding cell. -/
theorem isPath_drop {w : World} {a b : Cell} {p : List Cell}
    (h : IsPath w a b p) (j : ℕ) (hj : j < p.length) :
    IsPath w (p.getD j default) b (p.drop j) ∧
    (p.drop j).length = p.length - j := by
  obtain ⟨hch, hwk, hh, hl⟩ := h
  refine ⟨⟨hch.drop _, ?_, ?_, ?_⟩, by simp⟩
  · intro c hc
    exact hwk c (List.mem_of_mem_drop hc)
  · rw [List.head?_eq_getElem?, List.getElem?_drop, Nat.add_zero,
      List.getD_eq_getElem?_getD, List.getElem?_eq_getElem hj]
    simp
  · rw [List.getLast?_eq_getElem?] at hl ⊢
    rw [List.length_drop, List.getElem?_drop]
    rw [show j + (p.length - j - 1) = p.length - 1 by omega]
    exact hl


/-- Every reachable target has a shortest path length. -/
theorem reach_shortest {w : World} {a b : Cell} (h : Reach w a b) :
    ∃ n, ShortestLen w a b n := by
  classical
  obtain ⟨p, hp⟩ := h
  have hne : ∃ m, ∃ q, IsPath w a b q ∧ q.length = m + 1 := by
    refine ⟨p.length - 1, p, hp, ?_⟩
    have := hp.length_pos
    omega
  refine ⟨Nat.find hne, Nat.find_spec hne, ?_⟩
  intro q hq
  have hq1 : 0 < q.length := hq.length_pos
  have hmem : ∃ r, IsPath w a b r ∧ r.length = (q.length - 1) + 1 :=
    ⟨q, hq, by omega⟩
  have := Nat.find_min' hne hmem
  omega

/-- Shortest path lengths are unique. -/
theorem shortest_unique {w : World} {a b : Cell} {n m : ℕ}
    (hn : ShortestLen w a b n) (hm : ShortestLen w a b m) : n = m := by
  obtain ⟨⟨p, hp, hplen⟩, hmin⟩ := hn
  obtain ⟨⟨q, hq, hqlen⟩, hmin2⟩ := hm
  have h1 := hmin q hq
  have h2 := hmin2 p hp
  omega

/-- The trivial shortest path at a walkable cell. -/
theorem shortest_self {w : World} {a : Cell}
    (h : is_walkable w a.1 a.2 = true) : ShortestLen w a a 0 := by
  refine ⟨⟨[a], isPath_single h, rfl⟩, ?_⟩
  intro p hp
  exact hp.length_pos

/-- One step from `current` bounds the distance of a neighbour. -/
theorem shortest_adj_le {w : World} {a current nb : Cell} {v m : ℕ}
    (hcur : ShortestLen w a current v) (hadj : Adj current nb)
    (hwalk : is_walkable w nb.1 nb.2 = true)
    (hm : ShortestLen w a nb m) : m ≤ v + 1 := by
  obtain ⟨⟨p, hp, hplen⟩, -⟩ := hcur
  have hext := isPath_append_step hp hadj hwalk
  have := hm.2 (p ++ [nb]) hext
  simp at this
  omega

/-- On a fixed shortest path, the `j`-th cell is at distance exactly `j`
from the start. -/
theorem shortest_prefix {w : World} {a b : Cell} {n : ℕ} {P : List Cell}
    (hsl : ShortestLen w a b n) (hp : IsPath w a b P) (hlen : P.length = n + 1)
    (j : ℕ) (hj : j ≤ n) : ShortestLen w a (P.getD j default) j := by
  obtain ⟨htake, htakelen⟩ := isPath_take hp j (by omega)
  obtain ⟨hdrop, hdroplen⟩ := isPath_drop hp j (by omega)
  refine ⟨⟨P.take (j + 1), htake, by omega⟩, ?_⟩
  intro q hq
  obtain ⟨hcomp, hcomplen⟩ := isPath_comp hq hdrop
  have := hsl.2 _ hcomp
  have hq1 : 0 < q.length := hq.length_pos
  rw [hcomplen, hdroplen, hlen] at this
  omega

/-- Manhattan bound along the tail of a shortest path. -/
theorem shortest_suffix_manhattan {w : World} {a b : Cell} {n : ℕ}
    {P : List Cell} (hp : IsPath w a b P) (hlen : P.length = n + 1)
    (j : ℕ) (hj : j ≤ n) : heuristic (P.getD j default) b ≤ n - j := by
  obtain ⟨hdrop, hdroplen⟩ := isPath_drop hp j (by omega)
  have := isPath_manhattan hdrop
  rw [hdroplen, hlen] at this
  omega


end SF

namespace SF

/-- Characterisation of the neighbour list: exactly the walkable
4-adjacent cells. -/
theorem mem_neighbors {w : World} {c nb : Cell} :
    nb ∈ neighbors w c.1 c.2 ↔ Adj c nb ∧ is_walkable w nb.1 nb.2 = true := by
  unfold neighbors
  rw [List.mem_filter]
  constructor
  · rintro ⟨hmem, hwalk⟩
    simp only [List.mem_cons, List.mem_singleton] at hmem
    refine ⟨?_, by simpa using hwalk⟩
    rcases hmem with rfl | rfl | rfl | rfl | hfalse
    · simp [Adj]
    · simp [Adj]
    · simp [Adj]
    · simp [Adj]
    · simp at hfalse
  · rintro ⟨hadj, hwalk⟩
    refine ⟨?_, by simpa using hwalk⟩
    unfold Adj at hadj
    have h1 : nb = (c.1 + 1, c.2) ∨ nb = (c.1 - 1, c.2) ∨
        nb = (c.1, c.2 + 1) ∨ nb = (c.1, c.2 - 1) := by
      rcases nb with ⟨nx, ny⟩
      rcases c with ⟨cx, cy⟩
      simp only [Prod.mk.injEq]
      omega
    simp only [List.mem_cons, List.mem_singleton]
    tauto

/-- A walkable cell is inside the column/row bounds. -/
theorem walkable_bounds {w : World} {cx cy : ℤ}
    (h : is_walkable w cx cy = true) :
    0 ≤ cx ∧ 0 ≤ cy ∧ cx < w.cols ∧ cy < w.rows := by
  unfold is_walkable at h
  by_cases hb : cx < 0 ∨ cy < 0 ∨ cx ≥ w.cols ∨ cy ≥ w.rows
  · rw [if_pos hb] at h
    simp at h
  · push_neg at hb
    exact ⟨by omega, by omega, by omega, by omega⟩

/-- The finite set of in-bounds cells, used by the termination measure. -/
def gridCells (w : World) : Finset Cell :=
  (Finset.range w.cols.toNat ×ˢ Finset.range w.rows.toNat).image
    (fun p => ((p.1 : ℤ), (p.2 : ℤ)))

theorem walkable_mem_gridCells {w : World} {c : Cell}
    (h : is_walkable w c.1 c.2 = true) : c ∈ gridCells w := by
  obtain ⟨h1, h2, h3, h4⟩ := walkable_bounds h
  unfold gridCells
  rw [Finset.mem_image]
  refine ⟨(c.1.toNat, c.2.toNat), ?_, ?_⟩
  · rw [Finset.mem_product]
    constructor <;> rw [Finset.mem_range] <;> omega
  · rcases c with ⟨cx, cy⟩
    simp only [Prod.mk.injEq]
    constructor <;> omega

theorem gridCells_card_le (w : World) :
    (gridCells w).card ≤ w.cols.toNat * w.rows.toNat := by
  calc (gridCells w).card ≤ (Finset.range w.cols.toNat ×ˢ Finset.range w.rows.toNat).card :=
        Finset.card_image_le
    _ = w.cols.toNat * w.rows.toNat := by simp

/-- The per-cell potential of the strictly decreasing loop measure:
the current g-score, or the `1_000_000` default. -/
def gpot (st : AState) (c : Cell) : ℕ := (st.gScore c).getD 1000000

/-- The strictly decreasing measure of the `while open_set` loop: one unit
per heap entry plus five per unit of g-score potential. -/
def mu (w : World) (st : AState) : ℕ :=
  st.openSet.length + 5 * ∑ c ∈ gridCells w, gpot st c

theorem mu_init_lt_pathFuel (w : World) (start goal : Cell) :
    mu w (initState start goal) < pathFuel w := by
  have hpt : ∀ c, gpot (initState start goal) c ≤ 1000000 := by
    intro c
    unfold gpot initState mupd
    dsimp only
    split_ifs <;> simp
  have hsum : ∑ c ∈ gridCells w, gpot (initState start goal) c
      ≤ (w.cols.toNat * w.rows.toNat) * 1000000 := by
    calc ∑ c ∈ gridCells w, gpot (initState start goal) c
        ≤ ∑ _c ∈ gridCells w, 1000000 := Finset.sum_le_sum (fun c _ => hpt c)
      _ = (gridCells w).card * 1000000 := by rw [Finset.sum_const, smul_eq_mul]
      _ ≤ (w.cols.toNat * w.rows.toNat) * 1000000 :=
          Nat.mul_le_mul_right _ (gridCells_card_le w)
  have hlen : (initState start goal).openSet.length = 1 := rfl
  unfold mu pathFuel
  omega


end SF

namespace SF

/-- The loop invariant of the A* search in `find_path`. -/
structure AInv (w : World) (start goal : Cell) (st : AState) : Prop where
  walk_start : is_walkable w start.1 start.2 = true
  g_start : st.gScore start = some 0
  g_sound : ∀ c v, st.gScore c = some v →
    ∃ p, IsPath w start c p ∧ p.length = v + 1
  g_bound : ∀ c v, st.gScore c = some v → v < 1000000
  heap_isheap : IsHeap st.openSet
  heap_g : ∀ e ∈ st.openSet,
    (∃ v, st.gScore e.2 = some v ∧ v + heuristic e.2 goal ≤ e.1) ∨ e = (0, start)
  open_cur : ∀ c v, st.gScore c = some v → st.visited c = false →
    ∃ f, (f, c) ∈ st.openSet ∧ f ≤ v + heuristic c goal
  visited_g : ∀ c, st.visited c = true →
    ∃ v, st.gScore c = some v ∧ ∀ n, ShortestLen w start c n → v = n
  visited_expanded : ∀ c, st.visited c = true → ∀ s ∈ neighbors w c.1 c.2,
    ∀ n, ShortestLen w start c n → n + 1 < 1000000 →
    ∃ vs, st.gScore s = some vs ∧ vs ≤ n + 1
  came_step : ∀ c p, st.cameFrom c = some p →
    (Adj p c ∧ is_walkable w c.1 c.2 = true) ∧
    ∃ vp vc, st.gScore p = some vp ∧ st.gScore c = some vc ∧ vp < vc
  came_none_start : ∀ c, st.gScore c ≠ none → st.cameFrom c = none → c = start
  g_walk : ∀ c v, st.gScore c = some v → is_walkable w c.1 c.2 = true
  visited_goal : st.visited goal = false

theorem initState_gScore (start goal c : Cell) :
    (initState start goal).gScore c = if c = start then some 0 else none := rfl

/-- The invariant holds initially (for a walkable start cell). -/
theorem aInv_init {w : World} {start goal : Cell}
    (hws : is_walkable w start.1 start.2 = true) :
    AInv w start goal (initState start goal) := by
  constructor
  case walk_start => exact hws
  case g_start => simp [initState_gScore]
  case g_sound =>
    intro c v hc
    rw [initState_gScore] at hc
    by_cases hcs : c = start
    · rw [if_pos hcs] at hc
      have hv : v = 0 := by exact (Option.some.injEq _ _ ▸ hc).symm
      subst hcs
      subst hv
      exact ⟨[c], isPath_single hws, rfl⟩
    · rw [if_neg hcs] at hc
      exact absurd hc (by simp)
  case g_bound =>
    intro c v hc
    rw [initState_gScore] at hc
    by_cases hcs : c = start
    · rw [if_pos hcs] at hc
      have hv : v = 0 := by exact (Option.some.injEq _ _ ▸ hc).symm
      omega
    · rw [if_neg hcs] at hc
      exact absurd hc (by simp)
  case heap_isheap => exact isHeap_singleton _
  case heap_g =>
    intro e he
    simp only [initState, List.mem_singleton] at he
    exact Or.inr he
  case open_cur =>
    intro c v hc _
    rw [initState_gScore] at hc
    by_cases hcs : c = start
    · subst hcs
      exact ⟨0, List.mem_singleton.2 rfl, by omega⟩
    · rw [if_neg hcs] at hc
      exact absurd hc (by simp)
  case visited_g => intro c hc; simp [initState] at hc
  case visited_expanded => intro c hc; simp [initState] at hc
  case came_step => intro c p hc; simp [initState] at hc
  case came_none_start =>
    intro c hc _
    rw [initState_gScore] at hc
    by_cases hcs : c = start
    · exact hcs
    · rw [if_neg hcs] at hc
      exact absurd rfl hc
  case g_walk =>
    intro c v hc
    rw [initState_gScore] at hc
    by_cases hcs : c = start
    · subst hcs; exact hws
    · rw [if_neg hcs] at hc
      exact absurd hc (by simp)
  case visited_goal => simp [initState]


end SF

namespace SF

theorem listGetD_mem {α : Type} [Inhabited α] {l : List α} {n : ℕ}
    (hn : n < l.length) : l.getD n default ∈ l := by
  rw [List.getD_eq_getElem?_getD, List.getElem?_eq_getElem hn]
  exact List.getElem_mem hn

theorem path_getD_head {α : Type} [Inhabited α] {p : List α} {a : α}
    (h : p.head? = some a) : p.getD 0 default = a := by
  rcases p with _ | ⟨x, t⟩
  · simp at h
  · simpa using h

theorem path_getD_last {α : Type} [Inhabited α] {p : List α} {b : α} {n : ℕ}
    (h : p.getLast? = some b) (hlen : p.length = n + 1) :
    p.getD n default = b := by
  rw [List.getLast?_eq_getElem?, hlen] at h
  simp only [Nat.add_sub_cancel] at h
  rw [List.getD_eq_getElem?_getD, h]
  rfl

theorem chain'_adj_getD {p : List Cell} (h : List.Chain' Adj p) {i : ℕ}
    (hi : i + 1 < p.length) :
    Adj (p.getD i default) (p.getD (i + 1) default) := by
  rw [List.chain'_iff_get] at h
  have := h i (by omega)
  rw [List.getD_eq_getElem?_getD, List.getD_eq_getElem?_getD,
    List.getElem?_eq_getElem (by omega : i < p.length),
    List.getElem?_eq_getElem hi]
  simpa [List.get_eq_getElem] using this

/-- If the heap pop returns an entry, its cell's recorded g-score is
exactly the shortest-path distance from the start (the A* optimality
argument: the Manhattan heuristic is consistent). -/
theorem pop_optimal {w : World} {start goal : Cell} {st : AState}
    {e : Ent} {rest : List Ent} (inv : AInv w start goal st)
    (hpop : heappop st.openSet = some (e, rest)) :
    ∃ v, st.gScore e.2 = some v ∧ ∀ n, ShortestLen w start e.2 n → v = n := by
  classical
  have hne : st.openSet ≠ [] := by
    intro h
    rw [h] at hpop
    simp [heappop] at hpop
  obtain ⟨e0, l2, hpop0, he0, hheap2, hlen2, hsub, hsup, hmin⟩ :=
    heappop_spec st.openSet inv.heap_isheap hne
  rw [hpop0] at hpop
  have he : e = e0 := by
    have := (Option.some.injEq _ _ ▸ hpop)
    exact (congrArg Prod.fst this).symm
  subst he
  have hemem : e ∈ st.openSet := by
    rw [he0]
    exact getD_mem (List.length_pos.2 hne)
  rcases inv.heap_g e hemem with ⟨v, hgv, hvf⟩ | hestart
  · refine ⟨v, hgv, ?_⟩
    intro n hn
    obtain ⟨p0, hp0, hp0len⟩ := inv.g_sound e.2 v hgv
    have hvge : n ≤ v := by
      have := hn.2 p0 hp0
      omega
    rcases Nat.lt_or_ge n v with hlt | hge
    swap
    · omega
    exfalso
    by_cases hvis : st.visited e.2 = true
    · obtain ⟨v', hgv', hdist⟩ := inv.visited_g e.2 hvis
      rw [hgv] at hgv'
      have : v = v' := by simpa using hgv'
      subst this
      have := hdist n hn
      omega
    · have hvisF : st.visited e.2 = false := by simpa using hvis
      obtain ⟨P, hP, hPlen⟩ := hn.1
      have hlastP : P.getD n default = e.2 := path_getD_last hP.2.2.2 hPlen
      have hex : ∃ j, j ≤ n ∧ st.visited (P.getD j default) = false :=
        ⟨n, le_refl n, hlastP ▸ hvisF⟩
      set j := Nat.find hex with hjdef
      obtain ⟨hjn, hjvisF⟩ : j ≤ n ∧ st.visited (P.getD j default) = false :=
        Nat.find_spec hex
      have hvisTrue : ∀ i, i < j → st.visited (P.getD i default) = true := by
        intro i hi
        have hnot := Nat.find_min hex hi
        have hin : i ≤ n := le_trans (le_of_lt hi) hjn
        by_contra hcon
        exact hnot ⟨hin, by simpa using hcon⟩
      have hshort_j : ShortestLen w start (P.getD j default) j :=
        shortest_prefix hn hP hPlen j hjn
      have hvb : v < 1000000 := inv.g_bound e.2 v hgv
      have hgj : ∃ vj, st.gScore (P.getD j default) = some vj ∧ vj ≤ j := by
        rcases Nat.eq_zero_or_pos j with hj0 | hjpos
        · rw [hj0, path_getD_head hP.2.2.1]
          exact ⟨0, inv.g_start, le_refl 0⟩
        · have hzvis := hvisTrue (j - 1) (by omega)
          have hadjz : Adj (P.getD (j - 1) default) (P.getD j default) := by
            have hlt2 : (j - 1) + 1 < P.length := by
              rw [hPlen]
              omega
            have := chain'_adj_getD hP.1 hlt2
            rwa [show j - 1 + 1 = j by omega] at this
          have hwalkj : is_walkable w (P.getD j default).1 (P.getD j default).2 = true :=
            hP.2.1 _ (listGetD_mem (by rw [hPlen]; omega))
          have hshort_z : ShortestLen w start (P.getD (j - 1) default) (j - 1) :=
            shortest_prefix hn hP hPlen (j - 1) (by omega)
          obtain ⟨vs, hvs, hvsle⟩ := inv.visited_expanded _ hzvis _
            (mem_neighbors.2 ⟨hadjz, hwalkj⟩) (j - 1) hshort_z (by omega)
          exact ⟨vs, hvs, by omega⟩
      obtain ⟨vj, hgvj, hvjle⟩ := hgj
      obtain ⟨f', hf'mem, hf'le⟩ := inv.open_cur _ vj hgvj hjvisF
      have hman1 : heuristic (P.getD j default) e.2 ≤ n - j :=
        shortest_suffix_manhattan hP hPlen j hjn
      have htri := heuristic_triangle (P.getD j default) e.2 goal
      have hflt : f' < e.1 := by omega
      have hminf := hmin (f', P.getD j default) hf'mem
      rw [entLt_eq_decide, decide_eq_false_iff_not] at hminf
      exact hminf (Or.inl hflt)
  · refine ⟨0, ?_, ?_⟩
    · rw [hestart]
      exact inv.g_start
    · intro n hn
      rw [hestart] at hn
      exact (shortest_unique (shortest_self inv.walk_start) hn)


end SF

namespace SF

/-- The part of `AInv` that is restored after every single relaxation (the
`visited_expanded` clause is only re-established once the whole neighbour
loop of the current cell has run). -/
structure AInvX (w : World) (start goal : Cell) (st : AState) : Prop where
  walk_start : is_walkable w start.1 start.2 = true
  g_start : st.gScore start = some 0
  g_sound : ∀ c v, st.gScore c = some v →
    ∃ p, IsPath w start c p ∧ p.length = v + 1
  g_bound : ∀ c v, st.gScore c = some v → v < 1000000
  heap_isheap : IsHeap st.openSet
  heap_g : ∀ e ∈ st.openSet,
    (∃ v, st.gScore e.2 = some v ∧ v + heuristic e.2 goal ≤ e.1) ∨ e = (0, start)
  open_cur : ∀ c v, st.gScore c = some v → st.visited c = false →
    ∃ f, (f, c) ∈ st.openSet ∧ f ≤ v + heuristic c goal
  visited_g : ∀ c, st.visited c = true →
    ∃ v, st.gScore c = some v ∧ ∀ n, ShortestLen w start c n → v = n
  came_step : ∀ c p, st.cameFrom c = some p →
    (Adj p c ∧ is_walkable w c.1 c.2 = true) ∧
    ∃ vp vc, st.gScore p = some vp ∧ st.gScore c = some vc ∧ vp < vc
  came_none_start : ∀ c, st.gScore c ≠ none → st.cameFrom c = none → c = start
  g_walk : ∀ c v, st.gScore c = some v → is_walkable w c.1 c.2 = true
  visited_goal : st.visited goal = false

/-- Updating the g-score of an in-bounds cell shifts the measure sum by
exactly the change at that cell. -/
theorem sum_gpot_update {w : World} (st : AState) {nb : Cell} (t : ℕ)
    (hmem : nb ∈ gridCells w) :
    (∑ c ∈ gridCells w,
        gpot { st with gScore := mupd st.gScore nb (some t) } c) + gpot st nb =
    (∑ c ∈ gridCells w, gpot st c) + t := by
  set st2 : AState := { st with gScore := mupd st.gScore nb (some t) } with hst2
  have h1 := Finset.add_sum_erase (gridCells w) (gpot st) hmem
  have h2 := Finset.add_sum_erase (gridCells w) (gpot st2) hmem
  have herase : ∑ c ∈ (gridCells w).erase nb, gpot st2 c =
      ∑ c ∈ (gridCells w).erase nb, gpot st c := by
    apply Finset.sum_congr rfl
    intro c hc
    have hne : c ≠ nb := Finset.ne_of_mem_erase hc
    simp only [hst2, gpot, mupd]
    rw [if_neg hne]
  have hnb2 : gpot st2 nb = t := by
    simp [hst2, gpot, mupd]
  omega

/-- One execution of the neighbour-relaxation body: it cannot raise, it
restores `AInvX`, it leaves `visited` and the g-score of `current`
untouched, it establishes the expansion bound for that neighbour, g-scores
only decrease, and the loop measure does not increase. -/
theorem relax_spec {w : World} {start goal current nb : Cell} {st : AState}
    {vcur : ℕ} (hx : AInvX w start goal st)
    (hgcur : st.gScore current = some vcur)
    (hdcur : ∀ n, ShortestLen w start current n → vcur = n)
    (hnb : nb ∈ neighbors w current.1 current.2) :
    ∃ st2, relax goal current nb st = .ok st2 ∧
      AInvX w start goal st2 ∧
      st2.visited = st.visited ∧
      st2.gScore current = some vcur ∧
      (vcur + 1 < 1000000 → ∃ vnb, st2.gScore nb = some vnb ∧ vnb ≤ vcur + 1) ∧
      (∀ c vc, st.gScore c = some vc → ∃ vc', st2.gScore c = some vc' ∧ vc' ≤ vc) ∧
      mu w st2 ≤ mu w st := by
  obtain ⟨hadj, hwalknb⟩ := mem_neighbors.1 hnb
  have hcurnb : current ≠ nb := hadj.ne
  obtain ⟨pcur, hpcur, hpcurlen⟩ := hx.g_sound current vcur hgcur
  have hreach_nb : Reach w start nb := ⟨pcur ++ [nb], isPath_append_step hpcur hadj hwalknb⟩
  obtain ⟨ncur, hncur⟩ := reach_shortest ⟨pcur, hpcur⟩
  have hvcur_eq : vcur = ncur := hdcur ncur hncur
  unfold relax
  rw [hgcur]
  dsimp only
  by_cases hupd : vcur + 1 < (st.gScore nb).getD 1000000
  swap
  · -- no relaxation: the state is unchanged
    rw [if_neg hupd]
    refine ⟨st, rfl, hx, rfl, hgcur, ?_, ?_, le_refl _⟩
    · intro hguard
      rcases hgnb : st.gScore nb with _ | vnb
      · rw [hgnb] at hupd
        simp at hupd
        omega
      · rw [hgnb] at hupd
        simp at hupd
        exact ⟨vnb, rfl, by omega⟩
    · intro c vc hc
      exact ⟨vc, hc, le_refl _⟩
  · -- relaxation: the update branch never touches a visited neighbour
    have hnbvis : st.visited nb = false := by
      by_contra hcon
      have hv : st.visited nb = true := by simpa using hcon
      obtain ⟨vn, hgvn, hdn⟩ := hx.visited_g nb hv
      obtain ⟨m, hm⟩ := reach_shortest hreach_nb
      have hvnm : vn = m := hdn m hm
      have hle : m ≤ ncur + 1 := shortest_adj_le hncur hadj hwalknb hm
      rw [hgvn] at hupd
      simp at hupd
      omega
    have hnb_ne_start : nb ≠ start := by
      intro hns
      rw [hns, hx.g_start] at hupd
      simp at hupd
    rw [if_pos hupd]
    rw [hnbvis]
    simp only [if_pos rfl]
    set tent := vcur + 1 with htent
    set fnb := tent + heuristic nb goal with hfnb
    set st2 : AState :=
      { openSet := heappush st.openSet (fnb, nb)
        cameFrom := mupd st.cameFrom nb (some current)
        gScore := mupd st.gScore nb (some tent)
        fScore := mupd st.fScore nb (some fnb)
        visited := st.visited } with hst2
    obtain ⟨hpush1, hpush2, hpush3⟩ := heappush_spec st.openSet (fnb, nb) hx.heap_isheap
    have hg2 : ∀ c, st2.gScore c = if c = nb then some tent else st.gScore c := by
      intro c
      simp [hst2, mupd]
    have hg2nb : st2.gScore nb = some tent := by rw [hg2, if_pos rfl]
    have hg2ne : ∀ c, c ≠ nb → st2.gScore c = st.gScore c := by
      intro c hc
      rw [hg2, if_neg hc]
    have hgmono : ∀ c vc, st.gScore c = some vc →
        ∃ vc', st2.gScore c = some vc' ∧ vc' ≤ vc := by
      intro c vc hc
      by_cases hcnb : c = nb
      · subst hcnb
        rw [hc] at hupd
        simp at hupd
        exact ⟨tent, hg2nb, by omega⟩
      · exact ⟨vc, by rw [hg2ne c hcnb]; exact hc, le_refl _⟩
    have hbound_tent : tent < 1000000 := by
      rcases hgnb : st.gScore nb with _ | vnb
      · rw [hgnb] at hupd
        simpa using hupd
      · rw [hgnb] at hupd
        simp at hupd
        have := hx.g_bound nb vnb hgnb
        omega
    refine ⟨st2, rfl, ?_, rfl, by rw [hg2ne current hcurnb]; exact hgcur,
      fun _ => ⟨tent, hg2nb, le_refl _⟩, hgmono, ?_⟩
    · refine ⟨hx.walk_start, ?_, ?_, ?_, ?_, ?_, ?_, ?_, ?_, ?_, ?_, hx.visited_goal⟩
      · rw [hg2ne start (Ne.symm hnb_ne_start)]; exact hx.g_start
      · intro d v hd
        by_cases hdnb : d = nb
        · rw [hdnb] at hd ⊢
          rw [hg2nb] at hd
          have hv : v = tent := by simpa using hd.symm
          rw [hv]
          exact ⟨pcur ++ [nb], isPath_append_step hpcur hadj hwalknb, by
            simp [hpcurlen]⟩
        · rw [hg2ne d hdnb] at hd
          exact hx.g_sound d v hd
      · intro d v hd
        by_cases hdnb : d = nb
        · rw [hdnb] at hd
          rw [hg2nb] at hd
          have hv : v = tent := by simpa using hd.symm
          omega
        · rw [hg2ne d hdnb] at hd
          exact hx.g_bound d v hd
      · exact hpush1
      · intro e he
        rw [show st2.openSet = heappush st.openSet (fnb, nb) from rfl] at he
        rcases (hpush3 e).1 he with hold | hnew
        · rcases hx.heap_g e hold with ⟨v0, hv0, hb0⟩ | hstart0
          · obtain ⟨v0', hv0', hle0⟩ := hgmono e.2 v0 hv0
            exact Or.inl ⟨v0', hv0', by omega⟩
          · exact Or.inr hstart0
        · rw [hnew]
          exact Or.inl ⟨tent, hg2nb, le_refl _⟩
      · intro d v hd hvisd
        by_cases hdnb : d = nb
        · rw [hdnb] at hd ⊢
          rw [hg2nb] at hd
          have hv : v = tent := by simpa using hd.symm
          rw [hv]
          exact ⟨fnb, (hpush3 _).2 (Or.inr rfl), le_refl _⟩
        · rw [hg2ne d hdnb] at hd
          obtain ⟨f, hfmem, hfle⟩ := hx.open_cur d v hd hvisd
          exact ⟨f, (hpush3 _).2 (Or.inl hfmem), hfle⟩
      · intro d hd
        have hdnb : d ≠ nb := by
          intro he
          rw [he, hnbvis] at hd
          simp at hd
        rw [hg2ne d hdnb]
        exact hx.visited_g d hd
      · intro d q hdq
        by_cases hdnb : d = nb
        · rw [hdnb] at hdq ⊢
          have hqc : q = current := by
            have hcf : st2.cameFrom nb = some current := by simp [hst2, mupd]
            rw [hcf] at hdq
            simpa using hdq.symm
          rw [hqc]
          refine ⟨⟨hadj, hwalknb⟩, vcur, tent, ?_, hg2nb, by omega⟩
          rw [hg2ne current hcurnb]
          exact hgcur
        · have hdq2 : st.cameFrom d = some q := by
            have hcf : st2.cameFrom d = st.cameFrom d := by simp [hst2, mupd, hdnb]
            rw [← hcf]
            exact hdq
          obtain ⟨hstep, vp, vc, hvp, hvc, hlt⟩ := hx.came_step d q hdq2
          by_cases hqnb : q = nb
          · have hvpnb : st.gScore nb = some vp := by rw [← hqnb]; exact hvp
            rw [hvpnb] at hupd
            simp at hupd
            refine ⟨hstep, tent, vc, ?_, ?_, by omega⟩
            · rw [hqnb]; exact hg2nb
            · rw [hg2ne d hdnb]; exact hvc
          · refine ⟨hstep, vp, vc, ?_, ?_, hlt⟩
            · rw [hg2ne q hqnb]; exact hvp
            · rw [hg2ne d hdnb]; exact hvc
      · intro d hgd hcd
        by_cases hdnb : d = nb
        · rw [hdnb] at hcd
          have hcf : st2.cameFrom nb = some current := by simp [hst2, mupd]
          rw [hcf] at hcd
          simp at hcd
        · have h1 : st.cameFrom d = none := by
            have hcf : st2.cameFrom d = st.cameFrom d := by simp [hst2, mupd, hdnb]
            rw [← hcf]
            exact hcd
          have h2 : st.gScore d ≠ none := by
            rw [hg2ne d hdnb] at hgd
            exact hgd
          exact hx.came_none_start d h2 h1
      · intro d v hd
        by_cases hdnb : d = nb
        · rw [hdnb]
          exact hwalknb
        · rw [hg2ne d hdnb] at hd
          exact hx.g_walk d v hd
    · -- the measure does not increase
      have hnbgrid : nb ∈ gridCells w := walkable_mem_gridCells hwalknb
      have hsum := sum_gpot_update st tent hnbgrid
      have hpot : tent < gpot st nb := by
        unfold gpot
        omega
      have hlen : st2.openSet.length = st.openSet.length + 1 := hpush2
      have hsum2 : ∑ c ∈ gridCells w, gpot st2 c + tent + 1 ≤
          ∑ c ∈ gridCells w, gpot st c + tent := by
        have : gpot st2 = gpot { st with gScore := mupd st.gScore nb (some tent) } := by
          funext c
          simp [gpot, hst2, mupd]
        rw [this] at *
        omega
      unfold mu
      omega


end SF

namespace SF

/-- The whole neighbour loop of one expanded cell. -/
theorem relaxAll_spec {w : World} {start goal current : Cell} {vcur : ℕ}
    (hdcur : ∀ n, ShortestLen w start current n → vcur = n) :
    ∀ (nbs : List Cell) (st : AState),
      (∀ nb ∈ nbs, nb ∈ neighbors w current.1 current.2) →
      AInvX w start goal st →
      st.gScore current = some vcur →
      ∃ st2, relaxAll goal current nbs st = .ok st2 ∧
        AInvX w start goal st2 ∧
        st2.visited = st.visited ∧
        st2.gScore current = some vcur ∧
        (∀ nb ∈ nbs, vcur + 1 < 1000000 →
          ∃ vnb, st2.gScore nb = some vnb ∧ vnb ≤ vcur + 1) ∧
        (∀ c vc, st.gScore c = some vc → ∃ vc', st2.gScore c = some vc' ∧ vc' ≤ vc) ∧
        mu w st2 ≤ mu w st := by
  intro nbs
  induction nbs with
  | nil =>
    intro st _ hx hg
    exact ⟨st, rfl, hx, rfl, hg, by simp, fun c vc hc => ⟨vc, hc, le_refl _⟩,
      le_refl _⟩
  | cons nb rest ih =>
    intro st hmem hx hg
    obtain ⟨st1, hrel, hx1, hvis1, hg1, hnb1, hmono1, hmu1⟩ :=
      relax_spec hx hg hdcur (hmem nb (List.mem_cons_self nb rest))
    obtain ⟨st2, hrel2, hx2, hvis2, hg2, hnb2, hmono2, hmu2⟩ :=
      ih st1 (fun x hx2 => hmem x (List.mem_cons_of_mem nb hx2)) hx1 hg1
    refine ⟨st2, ?_, hx2, by rw [hvis2, hvis1], hg2, ?_, ?_, le_trans hmu2 hmu1⟩
    · unfold relaxAll
      rw [hrel]
      exact hrel2
    · intro x hxmem hguard
      rcases List.mem_cons.1 hxmem with rfl | hxrest
      · obtain ⟨vnb, hvnb, hle⟩ := hnb1 hguard
        obtain ⟨vnb', hvnb', hle'⟩ := hmono2 x vnb hvnb
        exact ⟨vnb', hvnb', by omega⟩
      · exact hnb2 x hxrest hguard
    · intro c vc hc
      obtain ⟨v1, hv1, hle1⟩ := hmono1 c vc hc
      obtain ⟨v2, hv2, hle2⟩ := hmono2 c v1 hv1
      exact ⟨v2, hv2, by omega⟩

/-- Path reconstruction from the predecessor links: the g-scores strictly
decrease along the links, so the walk ends at `start` and yields a genuine
path whose cell count is bounded by the goal's g-score. -/
theorem reconstructAux_spec {w : World} {start goal : Cell} {st : AState}
    (inv : AInv w start goal st) :
    ∀ (fuel : ℕ) (cur : Cell) (v : ℕ), st.gScore cur = some v → v < fuel →
      ∃ q, IsPath w start cur q ∧ q.length ≤ v + 1 ∧
        ∀ acc, reconstructAux fuel st.cameFrom cur (cur :: acc) = q ++ acc := by
  intro fuel
  induction fuel with
  | zero =>
    intro cur v _ hv
    omega
  | succ f ih =>
    intro cur v hg hv
    rcases hcame : st.cameFrom cur with _ | p
    · have hcur : cur = start := inv.came_none_start cur (by rw [hg]; simp) hcame
      refine ⟨[cur], ?_, by simp, ?_⟩
      · rw [hcur]
        exact isPath_single inv.walk_start
      · intro acc
        simp [reconstructAux, hcame]
    · obtain ⟨⟨hadj, hwalk⟩, vp, vc, hvp, hvc, hlt⟩ := inv.came_step cur p hcame
      have hvceq : vc = v := by
        rw [hg] at hvc
        simpa using hvc.symm
      obtain ⟨q', hq', hq'len, hq'eq⟩ := ih p vp hvp (by omega)
      refine ⟨q' ++ [cur], isPath_append_step hq' hadj hwalk, by
        simp
        omega, ?_⟩
      intro acc
      have hred : reconstructAux (f + 1) st.cameFrom cur (cur :: acc) =
          reconstructAux f st.cameFrom p (p :: cur :: acc) := by
        simp [reconstructAux, hcame]
      rw [hred, hq'eq (cur :: acc)]
      simp

theorem heappop_eq_none_iff (l : List Ent) : heappop l = none ↔ l = [] := by
  rcases l with _ | ⟨x, t⟩
  · simp [heappop]
  · rcases t with _ | ⟨y, r⟩ <;> simp [heappop]

/-- Main loop theorem: with the invariant and enough fuel, the loop either
exhausts the frontier — in which case any shortest path to the goal has at
least 1,000,000 steps — or returns a shortest cell path to the goal. -/
theorem astarLoop_spec {w : World} {start goal : Cell} :
    ∀ (fuel : ℕ) (st : AState), AInv w start goal st → mu w st < fuel →
    (astarLoop w goal fuel st = .ok none ∧
      (∀ n, ShortestLen w start goal n → 1000000 ≤ n)) ∨
    (∃ cells, astarLoop w goal fuel st = .ok (some cells) ∧
      IsPath w start goal cells ∧
      (∀ n, ShortestLen w start goal n → cells.length = n + 1 ∧ n < 1000000)) := by
  intro fuel
  induction fuel with
  | zero =>
    intro st _ hmu
    omega
  | succ f ih =>
    intro st inv hmu
    rcases hpop : heappop st.openSet with _ | ⟨e, rest⟩
    · -- frontier exhausted: the registry of reachable cells is fully
      -- processed, so a reachable goal would have been visited
      have hempty : st.openSet = [] := (heappop_eq_none_iff _).1 hpop
      left
      constructor
      · show astarLoop w goal (f + 1) st = .ok none
        unfold astarLoop
        rw [hpop]
      · intro n hn
        by_contra hbig
        push_neg at hbig
        obtain ⟨P, hP, hPlen⟩ := hn.1
        have hvisP : ∀ i, i ≤ n → st.visited (P.getD i default) = true := by
          intro i
          induction i with
          | zero =>
            intro _
            rw [path_getD_head hP.2.2.1]
            by_contra hv
            have hvF : st.visited start = false := by simpa using hv
            obtain ⟨fq, hfq, -⟩ := inv.open_cur start 0 inv.g_start hvF
            rw [hempty] at hfq
            simp at hfq
          | succ i ihi =>
            intro hi
            have hvi := ihi (by omega)
            have hsi : ShortestLen w start (P.getD i default) i :=
              shortest_prefix hn hP hPlen i (by omega)
            have hadji : Adj (P.getD i default) (P.getD (i + 1) default) :=
              chain'_adj_getD hP.1 (by rw [hPlen]; omega)
            have hwalki : is_walkable w (P.getD (i + 1) default).1
                (P.getD (i + 1) default).2 = true :=
              hP.2.1 _ (listGetD_mem (by rw [hPlen]; omega))
            obtain ⟨vs, hvs, -⟩ := inv.visited_expanded _ hvi _
              (mem_neighbors.2 ⟨hadji, hwalki⟩) i hsi (by omega)
            by_contra hv
            have hvF : st.visited (P.getD (i + 1) default) = false := by
              simpa using hv
            obtain ⟨fq, hfq, -⟩ := inv.open_cur _ vs hvs hvF
            rw [hempty] at hfq
            simp at hfq
        have hlast := hvisP n (le_refl n)
        rw [path_getD_last hP.2.2.2 hPlen] at hlast
        rw [inv.visited_goal] at hlast
        simp at hlast
    · obtain ⟨v, hgv, hdv⟩ := pop_optimal inv hpop
      by_cases hgoal : e.2 = goal
      · right
        have hvlt : v < 1000000 := inv.g_bound _ _ hgv
        obtain ⟨q, hq, hqlen, hqeq⟩ := reconstructAux_spec inv 1000001 e.2 v hgv
          (by omega)
        have hrecon : reconstruct 1000001 st.cameFrom e.2 = q := by
          unfold reconstruct
          simpa using hqeq []
        refine ⟨q, ?_, by rw [← hgoal]; exact hq, ?_⟩
        · show astarLoop w goal (f + 1) st = .ok (some q)
          unfold astarLoop
          rw [hpop]
          dsimp only
          rw [if_pos hgoal, hrecon]
        · intro n hn
          rw [← hgoal] at hn
          have hveq := hdv n hn
          have hgelen := hn.2 q hq
          exact ⟨by omega, by omega⟩
      · -- expand the popped cell
        have hne : st.openSet ≠ [] := by
          intro h
          rw [(heappop_eq_none_iff _).2 h] at hpop
          simp at hpop
        obtain ⟨e0, l2, hpop0, he0, hheap2, hlen2, hsub, hsup, hmin⟩ :=
          heappop_spec st.openSet inv.heap_isheap hne
        rw [hpop] at hpop0
        have hee : e = e0 ∧ rest = l2 := by
          have h1 : (e, rest) = (e0, l2) := by simpa using hpop0
          exact ⟨congrArg Prod.fst h1, congrArg Prod.snd h1⟩
        obtain ⟨he1, hl1⟩ := hee
        subst he1
        subst hl1
        set st1 : AState :=
          { st with openSet := rest, visited := mupd st.visited e.2 true } with hst1
        have hx1 : AInvX w start goal st1 := by
          refine ⟨inv.walk_start, inv.g_start, inv.g_sound, inv.g_bound, hheap2,
            ?_, ?_, ?_, inv.came_step, inv.came_none_start, inv.g_walk, ?_⟩
          · intro e2 he2
            exact inv.heap_g e2 (hsub e2 he2)
          · intro c vc hc hvisc
            have hcc : c ≠ e.2 ∧ st.visited c = false := by
              by_cases hce : c = e.2
              · exfalso
                rw [show st1.visited c = mupd st.visited e.2 true c from rfl] at hvisc
                rw [mupd, if_pos hce] at hvisc
                simp at hvisc
              · refine ⟨hce, ?_⟩
                rw [show st1.visited c = mupd st.visited e.2 true c from rfl] at hvisc
                rwa [mupd, if_neg hce] at hvisc
            obtain ⟨fq, hfq, hfqle⟩ := inv.open_cur c vc hc hcc.2
            rcases hsup (fq, c) hfq with heq | hrest2
            · exfalso
              exact hcc.1 (congrArg Prod.snd heq)
            · exact ⟨fq, hrest2, hfqle⟩
          · intro c hc
            by_cases hce : c = e.2
            · rw [hce]
              exact ⟨v, hgv, hdv⟩
            · rw [show st1.visited c = mupd st.visited e.2 true c from rfl,
                mupd, if_neg hce] at hc
              exact inv.visited_g c hc
          · rw [show st1.visited goal = mupd st.visited e.2 true goal from rfl,
              mupd, if_neg (fun h => hgoal h.symm)]
            exact inv.visited_goal
        obtain ⟨st2, hrel, hx2, hvis2, hg2, hnbs2, hmono2, hmu2⟩ :=
          relaxAll_spec hdv (neighbors w e.2.1 e.2.2) st1 (fun _ h => h) hx1 hgv
        have hrel2 : relaxAll goal e.2 (neighbors w e.2.1 e.2.2)
            { st with openSet := rest, visited := mupd st.visited e.2 true } =
            .ok st2 := by
          rw [← hst1]
          exact hrel
        have hunfold : astarLoop w goal (f + 1) st = astarLoop w goal f st2 := by
          conv_lhs => rw [astarLoop]
          rw [hpop]
          dsimp only
          rw [if_neg hgoal]
          rw [hrel2]
        have inv2 : AInv w start goal st2 := by
          refine ⟨hx2.walk_start, hx2.g_start, hx2.g_sound, hx2.g_bound,
            hx2.heap_isheap, hx2.heap_g, hx2.open_cur, hx2.visited_g, ?_,
            hx2.came_step, hx2.came_none_start, hx2.g_walk, hx2.visited_goal⟩
          intro c hc s hs n hn hguard
          rw [hvis2] at hc
          by_cases hce : c = e.2
          · have hveq : v = n := hdv n (hce ▸ hn)
            obtain ⟨vnb, hvnb, hle⟩ := hnbs2 s (by rw [hce] at hs; exact hs)
              (by omega)
            exact ⟨vnb, hvnb, by omega⟩
          · rw [show st1.visited c = mupd st.visited e.2 true c from rfl,
              mupd, if_neg hce] at hc
            obtain ⟨vs, hvs, hvsle⟩ := inv.visited_expanded c hc s hs n hn hguard
            obtain ⟨vs', hvs', hle'⟩ := hmono2 s vs hvs
            exact ⟨vs', hvs', by omega⟩
        have hmu1 : mu w st1 + 1 = mu w st := by
          unfold mu
          have hlen : st1.openSet.length = st.openSet.length - 1 := hlen2
          have hlenpos : 0 < st.openSet.length := List.length_pos.2 hne
          have hsame : ∑ c ∈ gridCells w, gpot st1 c = ∑ c ∈ gridCells w, gpot st c :=
            rfl
          omega
        rcases ih st2 inv2 (by omega) with ⟨heq, hcomp⟩ | ⟨cells, heq, hpath, hlen⟩
        · left
          refine ⟨?_, hcomp⟩
          rw [hunfold]
          exact heq
        · right
          refine ⟨cells, ?_, hpath, hlen⟩
          rw [hunfold]
          exact heq

/-- For walkable start/goal cells, `find_path` either returns `[]` and every
path to the goal has at least `1_000_000` steps, or it returns the
centre-mapped cells of a genuinely shortest path (of fewer than `1_000_000`
steps).  Wrapper combining the loop theorem with the precondition check of
`find_path`. -/
theorem find_path_cases (w : World) (sp tp : ℚ × ℚ) {start goal : Cell}
    (hs : cell_from_pos w sp.1 sp.2 = start)
    (hg : cell_from_pos w tp.1 tp.2 = goal)
    (hws : is_walkable w start.1 start.2 = true)
    (hwg : is_walkable w goal.1 goal.2 = true) :
    (find_path w sp tp = .ok [] ∧
      (∀ n, ShortestLen w start goal n → 1000000 ≤ n)) ∨
    (∃ cells, find_path w sp tp = .ok (cells.map (center w)) ∧
      IsPath w start goal cells ∧
      (∀ n, ShortestLen w start goal n → cells.length = n + 1 ∧ n < 1000000)) := by
  have hloop := astarLoop_spec (pathFuel w) (initState start goal)
    (aInv_init hws) (mu_init_lt_pathFuel w start goal)
  rcases hloop with ⟨heq, hcomp⟩ | ⟨cells, heq, hpath, hlen⟩
  · left
    refine ⟨?_, hcomp⟩
    unfold find_path
    rw [hs, hg, if_neg (by simp [hws, hwg]), heq]
  · right
    refine ⟨cells, ?_, hpath, hlen⟩
    unfold find_path
    rw [hs, hg, if_neg (by simp [hws, hwg]), heq]




/-- Unit world for concrete witnesses: one walkable grass cell of pixel
size 10. -/
def wUnit : World := { cell := 10, cols := 1, rows := 1, tiles := [⟨"grass"⟩] }

/-- **C1** (amended).  For every world grid with a positive cell size and
every start/goal position pair whose derived cells are connected by a
4-connected walkable path of shortest length `n` with `n < 1_000_000`
(the `g_score.get(nb, 1_000_000)` default caps discoverable distances),
`find_path` returns a non-empty waypoint list of `n + 1` entries, each the
centre `(cell_index * cell_size + cell_size / 2, ...)` of a cell on a
shortest cell path, beginning at the start cell's centre and ending at the
goal cell's centre.  The original claim, without the `n < 1_000_000`
bound, is refuted by `claim_C1_counterexample` below. -/
theorem claim_C1_shortest_path {w : World} {sp tp : ℚ × ℚ} {n : ℕ}
    (hcell : 0 < w.cell)
    (hn : ShortestLen w (cell_from_pos w sp.1 sp.2) (cell_from_pos w tp.1 tp.2) n)
    (hsmall : n < 1000000) :
    ∃ cells, find_path w sp tp = Except.ok (cells.map (center w)) ∧
      IsPath w (cell_from_pos w sp.1 sp.2) (cell_from_pos w tp.1 tp.2) cells ∧
      cells.length = n + 1 ∧ cells.map (center w) ≠ [] ∧
      (cells.map (center w)).head? = some (center w (cell_from_pos w sp.1 sp.2)) ∧
      (cells.map (center w)).getLast? =
        some (center w (cell_from_pos w tp.1 tp.2)) := by
  obtain ⟨p, hp, hplen⟩ := hn.1
  have hws := hp.2.1 _ (List.mem_of_mem_head? hp.2.2.1)
  have hwg := hp.2.1 _ (List.mem_of_mem_getLast? hp.2.2.2)
  rcases find_path_cases w sp tp rfl rfl hws hwg with
    ⟨-, hcomp⟩ | ⟨cells, heq, hpath, hlen⟩
  · exact absurd (hcomp n hn) (by omega)
  · obtain ⟨hlen1, -⟩ := hlen n hn
    refine ⟨cells, heq, hpath, hlen1, ?_, ?_, ?_⟩
    · simpa using hpath.ne_nil
    · rw [List.head?_map, hpath.2.2.1]
      rfl
    · rw [List.getLast?_map, hpath.2.2.2]
      rfl

/-- `claim_C1_shortest_path` at a concrete input: the one-cell world with
start and goal both at position `(5, 5)` (cell `(0, 0)`), shortest length
`0`. -/
theorem claim_C1_witness :
    0 < wUnit.cell ∧
    ShortestLen wUnit (cell_from_pos wUnit 5 5) (cell_from_pos wUnit 5 5) 0 ∧
    (0 : ℕ) < 1000000 ∧
    (∃ cells, find_path wUnit (5, 5) (5, 5) = Except.ok (cells.map (center wUnit)) ∧
      IsPath wUnit (cell_from_pos wUnit 5 5) (cell_from_pos wUnit 5 5) cells ∧
      cells.length = 0 + 1 ∧ cells.map (center wUnit) ≠ [] ∧
      (cells.map (center wUnit)).head? =
        some (center wUnit (cell_from_pos wUnit 5 5)) ∧
      (cells.map (center wUnit)).getLast? =
        some (center wUnit (cell_from_pos wUnit 5 5))) := by
  have hc : cell_from_pos wUnit 5 5 = ((0 : ℤ), (0 : ℤ)) := by
    have h0 : ⌊(5 : ℚ) / wUnit.cell⌋ = 0 := by
      rw [Int.floor_eq_zero_iff, Set.mem_Ico]
      constructor <;> norm_num [wUnit]
    unfold cell_from_pos
    rw [h0]
  have hw : is_walkable wUnit (cell_from_pos wUnit 5 5).1
      (cell_from_pos wUnit 5 5).2 = true := by
    rw [hc]
    decide
  have hs0 : ShortestLen wUnit (cell_from_pos wUnit 5 5)
      (cell_from_pos wUnit 5 5) 0 := shortest_self hw
  exact ⟨by norm_num [wUnit], hs0, by norm_num,
    claim_C1_shortest_path (by norm_num [wUnit]) hs0 (by norm_num)⟩

/-- A 1 × 1000001 corridor of walkable grass with unit cell size: the goal
cell `(1000000, 0)` is exactly `1_000_000` steps from `(0, 0)`. -/
def wCorr : World :=
  { cell := 1, cols := 1000001, rows := 1, tiles := List.replicate 1000001 ⟨"grass"⟩ }

theorem wCorr_walkable {i : ℤ} (h0 : 0 ≤ i) (h1 : i < 1000001) :
    is_walkable wCorr i 0 = true := by
  unfold is_walkable
  rw [if_neg (by simp only [wCorr]; omega)]
  have hi : (0 * wCorr.cols + i).toNat = i.toNat := by
    simp
  rw [hi]
  have ht : wCorr.tiles.get? i.toNat = some ⟨"grass"⟩ := by
    rw [List.get?_eq_getElem?]
    show (List.replicate 1000001 (⟨"grass"⟩ : Tile))[i.toNat]? = some ⟨"grass"⟩
    rw [List.getElem?_replicate, if_pos (by omega)]
  rw [ht]
  decide

/-- The straight-line cell path along the corridor. -/
def corridorPath : List Cell :=
  (List.range 1000001).map (fun i : ℕ => ((i : ℤ), 0))

theorem corridorPath_length : corridorPath.length = 1000001 := by
  unfold corridorPath
  rw [List.length_map, List.length_range]

theorem corridorPath_isPath :
    IsPath wCorr ((0 : ℤ), (0 : ℤ)) ((1000000 : ℤ), (0 : ℤ)) corridorPath := by
  refine ⟨?_, ?_, ?_, ?_⟩
  · rw [List.chain'_iff_get]
    intro i hi
    simp only [List.get_eq_getElem, corridorPath, List.getElem_map, List.getElem_range]
    unfold Adj
    push_cast
    omega
  · intro c hc
    simp only [corridorPath, List.mem_map, List.mem_range] at hc
    obtain ⟨i, hi, hieq⟩ := hc
    rw [← hieq]
    show is_walkable wCorr (i : ℤ) 0 = true
    exact wCorr_walkable (by omega) (by exact_mod_cast hi)
  · rw [List.head?_eq_getElem?]
    simp only [corridorPath, List.getElem?_map]
    rw [List.getElem?_range (by omega)]
    rfl
  · rw [List.getLast?_eq_getElem?, corridorPath_length]
    simp only [corridorPath, List.getElem?_map]
    rw [List.getElem?_range (by omega)]
    rfl

theorem corridor_shortest :
    ShortestLen wCorr ((0 : ℤ), (0 : ℤ)) ((1000000 : ℤ), (0 : ℤ)) 1000000 := by
  refine ⟨⟨corridorPath, corridorPath_isPath, corridorPath_length⟩, ?_⟩
  intro p hp
  have h := isPath_manhattan hp
  have hh : heuristic ((0 : ℤ), (0 : ℤ)) ((1000000 : ℤ), (0 : ℤ)) = 1000000 := by
    unfold heuristic
    simp
  omega

/-- **C1 is refuted in its unbounded form**: on the corridor world the
start and goal cells are walkable, in bounds, and connected (shortest
length `1_000_000`), yet `find_path` returns the empty list — not a
non-empty waypoint list of length `1_000_001` — because the
`g_score.get(nb, 1_000_000)` default makes every tentative score of
`1_000_000` or more lose the comparison, so the goal is never recorded and
the frontier drains. -/
theorem claim_C1_counterexample :
    ∃ (w : World) (sp tp : ℚ × ℚ) (n : ℕ),
      0 < w.cell ∧
      ShortestLen w (cell_from_pos w sp.1 sp.2) (cell_from_pos w tp.1 tp.2) n ∧
      find_path w sp tp = Except.ok [] := by
  have hsp : cell_from_pos wCorr (1 / 2) (1 / 2) = ((0 : ℤ), (0 : ℤ)) := by
    have h0 : ⌊(1 / 2 : ℚ) / wCorr.cell⌋ = 0 := by
      rw [Int.floor_eq_zero_iff, Set.mem_Ico]
      constructor <;> norm_num [wCorr]
    unfold cell_from_pos
    rw [h0]
  have htp : cell_from_pos wCorr (2000001 / 2) (1 / 2) =
      ((1000000 : ℤ), (0 : ℤ)) := by
    have h0 : ⌊(2000001 / 2 : ℚ) / wCorr.cell⌋ = 1000000 := by
      rw [Int.floor_eq_iff]
      constructor <;> norm_num [wCorr]
    have h1 : ⌊(1 / 2 : ℚ) / wCorr.cell⌋ = 0 := by
      rw [Int.floor_eq_zero_iff, Set.mem_Ico]
      constructor <;> norm_num [wCorr]
    unfold cell_from_pos
    rw [h0, h1]
  refine ⟨wCorr, (1 / 2, 1 / 2), (2000001 / 2, 1 / 2), 1000000,
    by norm_num [wCorr], ?_, ?_⟩
  · show ShortestLen wCorr (cell_from_pos wCorr (1 / 2) (1 / 2))
      (cell_from_pos wCorr (2000001 / 2) (1 / 2)) 1000000
    rw [hsp, htp]
    exact corridor_shortest
  · have hws : is_walkable wCorr ((0 : ℤ), (0 : ℤ)).1 ((0 : ℤ), (0 : ℤ)).2 = true :=
      wCorr_walkable (by omega) (by omega)
    have hwg : is_walkable wCorr ((1000000 : ℤ), (0 : ℤ)).1
        ((1000000 : ℤ), (0 : ℤ)).2 = true :=
      wCorr_walkable (by omega) (by omega)
    rcases find_path_cases wCorr (1 / 2, 1 / 2) (2000001 / 2, 1 / 2)
      hsp htp hws hwg with ⟨heq, -⟩ | ⟨cells, heq, hpath, hlen⟩
    · exact heq
    · exfalso
      have := (hlen 1000000 corridor_shortest).2
      omega

/-- **C2**.  `find_path` never raises: it always returns `ok` with a list,
and that list is empty exactly when (1) the derived start or goal cell
fails the `is_walkable` precondition check (out of bounds or a blocked
kind — no search is then attempted), or (2) the A* frontier drains without
popping the goal (`astarLoop` returns `ok none`).  The two cases produce
the same `[]` return value, indistinguishable to the caller. -/
theorem claim_C2_empty_cases (w : World) (sp tp : ℚ × ℚ) :
    ∃ r, find_path w sp tp = Except.ok r ∧
      (r = [] ↔
        (is_walkable w (cell_from_pos w sp.1 sp.2).1
            (cell_from_pos w sp.1 sp.2).2 = false ∨
         is_walkable w (cell_from_pos w tp.1 tp.2).1
            (cell_from_pos w tp.1 tp.2).2 = false) ∨
        astarLoop w (cell_from_pos w tp.1 tp.2) (pathFuel w)
          (initState (cell_from_pos w sp.1 sp.2) (cell_from_pos w tp.1 tp.2)) =
          Except.ok none) := by
  by_cases hws : is_walkable w (cell_from_pos w sp.1 sp.2).1
      (cell_from_pos w sp.1 sp.2).2 = true
  · by_cases hwg : is_walkable w (cell_from_pos w tp.1 tp.2).1
        (cell_from_pos w tp.1 tp.2).2 = true
    · have hloop := astarLoop_spec (pathFuel w)
        (initState (cell_from_pos w sp.1 sp.2) (cell_from_pos w tp.1 tp.2))
        (aInv_init hws) (mu_init_lt_pathFuel w _ _)
      rcases hloop with ⟨heq, -⟩ | ⟨cells, heq, hpath, -⟩
      · refine ⟨[], ?_, ?_⟩
        · unfold find_path
          rw [if_neg (by simp [hws, hwg]), heq]
        · simp [heq]
      · refine ⟨cells.map (center w), ?_, ?_⟩
        · unfold find_path
          rw [if_neg (by simp [hws, hwg]), heq]
        · constructor
          · intro hnil
            exact absurd (by simpa using hnil) hpath.ne_nil
          · intro hcase
            rcases hcase with (h | h) | h
            · rw [hws] at h
              exact absurd h (by simp)
            · rw [hwg] at h
              exact absurd h (by simp)
            · rw [heq] at h
              simp at h
    · simp only [Bool.not_eq_true] at hwg
      refine ⟨[], ?_, ?_⟩
      · unfold find_path
        rw [if_pos (by simp [hwg])]
      · simp [hwg]
  · simp only [Bool.not_eq_true] at hws
    refine ⟨[], ?_, ?_⟩
    · unfold find_path
      rw [if_pos (by simp [hws])]
    · simp [hws]

/-- World-threaded mirror of `astarLoop`: the grid is carried through every
iteration (as the Python `self.grid` object is) and handed back with the
result, so grid mutation — if the loop performed any — would be observable
in the returned world. -/
def astarLoopW (goal : Cell) :
    ℕ → AState × World → Except PyErr (Option (List Cell) × World)
  | 0, _ => .error .fuelOut
  | fuel + 1, (st, w) =>
    match heappop st.openSet with
    | none => .ok (none, w)
    | some (e, rest) =>
      let current := e.2
      if current = goal then
        .ok (some (reconstruct 1000001 st.cameFrom current), w)
      else
        let st1 := { st with openSet := rest, visited := mupd st.visited current true }
        match relaxAll goal current (neighbors w current.1 current.2) st1 with
        | .error er => .error er
        | .ok st2 => astarLoopW goal fuel (st2, w)

/-- World-threaded mirror of `find_path`, returning the grid alongside the
waypoint list. -/
def find_pathW (w : World) (start_pos target_pos : ℚ × ℚ) :
    Except PyErr (List (ℚ × ℚ) × World) :=
  let start := cell_from_pos w start_pos.1 start_pos.2
  let goal := cell_from_pos w target_pos.1 target_pos.2
  if ¬ (is_walkable w start.1 start.2) ∨ ¬ (is_walkable w goal.1 goal.2) then
    .ok ([], w)
  else
    match astarLoopW goal (pathFuel w) (initState start goal, w) with
    | .error e => .error e
    | .ok (none, w2) => .ok ([], w2)
    | .ok (some cells, w2) => .ok (cells.map (center w2), w2)

theorem astarLoopW_eq (goal : Cell) :
    ∀ (fuel : ℕ) (st : AState) (w : World),
      astarLoopW goal fuel (st, w) =
        (astarLoop w goal fuel st).map (fun o => (o, w)) := by
  intro fuel
  induction fuel with
  | zero =>
    intro st w
    rfl
  | succ f ih =>
    intro st w
    rcases hpop : heappop st.openSet with _ | ⟨e, rest⟩
    · simp [astarLoopW, astarLoop, hpop, Except.map]
    · by_cases hgoal : e.2 = goal
      · simp [astarLoopW, astarLoop, hpop, hgoal, Except.map]
      · rcases hrel : relaxAll goal e.2 (neighbors w e.2.1 e.2.2)
            { st with openSet := rest, visited := mupd st.visited e.2 true }
          with er | st2
        · simp [astarLoopW, astarLoop, hpop, hgoal, hrel, Except.map]
        · simp [astarLoopW, astarLoop, hpop, hgoal, hrel, ih]

/-- **C8**.  `find_path` does not mutate the world grid: the threaded
mirror returns exactly the input world (so its cell size, column/row
counts, and tile list — hence every tile's kind — are identical before and
after the call) together with the same waypoint list as the pure
`find_path`. -/
theorem claim_C8_no_mutation (w : World) (sp tp : ℚ × ℚ) :
    find_pathW w sp tp = (find_path w sp tp).map (fun r => (r, w)) ∧
    (∀ r w2, find_pathW w sp tp = Except.ok (r, w2) →
      w2.cell = w.cell ∧ w2.cols = w.cols ∧ w2.rows = w.rows ∧
      w2.tiles = w.tiles) := by
  have hmain : find_pathW w sp tp = (find_path w sp tp).map (fun r => (r, w)) := by
    unfold find_pathW find_path
    dsimp only
    split_ifs with h
    · rfl
    · rw [astarLoopW_eq]
      rcases h2 : astarLoop w (cell_from_pos w tp.1 tp.2) (pathFuel w)
          (initState (cell_from_pos w sp.1 sp.2) (cell_from_pos w tp.1 tp.2))
        with er | o
      · simp [Except.map]
      · rcases o with _ | cells <;> simp [Except.map]
  refine ⟨hmain, ?_⟩
  intro r w2 heq
  rw [hmain] at heq
  rcases h2 : find_path w sp tp with er | r0
  · rw [h2] at heq
    simp [Except.map] at heq
  · rw [h2] at heq
    simp [Except.map] at heq
    rw [← heq.2]
    exact ⟨rfl, rfl, rfl, rfl⟩

/-- `claim_C8_no_mutation` at a concrete input: the one-cell world. -/
theorem claim_C8_witness :
    find_pathW wUnit (5, 5) (5, 5) =
      (find_path wUnit (5, 5) (5, 5)).map (fun r => (r, wUnit)) :=
  (claim_C8_no_mutation wUnit (5, 5) (5, 5)).1

/-- **C9**.  `find_path` is deterministic.  First conjunct: the result is a
function of the inputs alone — equal grids and positions give exactly the
same waypoint sequence.  Second conjunct: the order on `(f_score, cell)`
heap entries is total, so comparing two distinct entries always yields a
definite answer (tie-breaking on equal f-scores falls through to the cell
coordinates).  Third conjunct: every pop of the open set returns an entry
that is minimal in that total order among all entries in the heap, so the
expansion order is fixed by the entry order, not by arrival accidents. -/
theorem claim_C9_deterministic :
    (∀ (w w2 : World) (sp tp sp2 tp2 : ℚ × ℚ),
      w = w2 → sp = sp2 → tp = tp2 →
      find_path w sp tp = find_path w2 sp2 tp2) ∧
    (∀ a b : Ent, a ≠ b → entLt a b = true ∨ entLt b a = true) ∧
    (∀ (l : List Ent) (e : Ent) (rest : List Ent), IsHeap l →
      heappop l = some (e, rest) → ∀ z ∈ l, entLt z e = false) := by
  refine ⟨?_, ?_, ?_⟩
  · intro w w2 sp tp sp2 tp2 hw hsp htp
    rw [hw, hsp, htp]
  · intro a b hne
    rcases hab : entLt a b with _ | _
    · rcases hba : entLt b a with _ | _
      · exact absurd (entLt_connex hab hba) hne
      · exact Or.inr rfl
    · exact Or.inl rfl
  · intro l e rest hheap hpop z hz
    have hne : l ≠ [] := by
      intro h
      rw [(heappop_eq_none_iff _).2 h] at hpop
      simp at hpop
    obtain ⟨e0, l2, hpop0, -, -, -, -, -, hmin⟩ := heappop_spec l hheap hne
    rw [hpop] at hpop0
    have hee : e = e0 := by
      have h1 : e = e0 ∧ rest = l2 := by simpa using hpop0
      exact h1.1
    rw [hee]
    exact hmin z hz

/-- `claim_C9_deterministic` at concrete inputs: repeated identical calls,
a tie on f-scores broken by cell order, and a singleton-heap pop. -/
theorem claim_C9_witness :
    (find_path wUnit (5, 5) (5, 5) = find_path wUnit (5, 5) (5, 5)) ∧
    (entLt (3, 0, 0) (3, 0, 1) = true ∨ entLt (3, 0, 1) (3, 0, 0) = true) ∧
    (∀ z ∈ [((0, (0, 0)) : Ent)], entLt z (0, (0, 0)) = false) := by
  refine ⟨?_, ?_, ?_⟩
  · exact claim_C9_deterministic.1 wUnit wUnit (5, 5) (5, 5) (5, 5) (5, 5)
      rfl rfl rfl
  · exact claim_C9_deterministic.2.1 (3, 0, 0) (3, 0, 1) (by decide)
  · exact claim_C9_deterministic.2.2 [(0, (0, 0))] (0, (0, 0)) []
      (isHeap_singleton _) rfl

end SF
